import Mathlib

/-!
Verification of the Job Scheduling & File Lifecycle subsystem of the
mp4_to_wav repository (`src/services/ConversionService.ts` and
`src/services/FileManager.ts`), as a shallow embedding.

The scheduler is modelled as a state machine: `State` mirrors the private
fields of `ConversionService` (`jobs`, `queue`, `processing`,
`maxConcurrentJobs`), extended with explicit bookkeeping for the armed
watchdog timers and the outstanding engine invocations (both of which are
implicit in the TypeScript control flow of `processJob`), a logical clock
standing in for `Date()`, and ghost call logs (`clearCalls`, `deleteCalls`,
`admitCalls`, `cleanupCalls`) that record each `clearTimeout`,
`processing.delete`, `processNextJob` call made on behalf of a terminating
job, and each `fileManager.cleanupJob` call.  Ghost fields never influence
behaviour.  Asynchronous callbacks (watchdog firing, engine settlement,
progress reports) are events interleaved into a trace.
-/

namespace Mp4ToWav

/-- `JobStatus` from `src/types`: `queued | processing | completed | failed | cancelled`. -/
inductive JobStatus where
  | queued
  | processing
  | completed
  | failed
  | cancelled
deriving DecidableEq, Repr

/-- `AudioMetadata` from `src/types` (numeric fields modelled as `Int`). -/
structure AudioMetadata where
  sampleRate : Int
  bitDepth : Int
  channels : Int
  duration : Int
  codec : String
  bitrate : Int
deriving DecidableEq, Repr

/-- `ConversionJob` from `src/types`; job ids are modelled as `Nat`,
timestamps as `Nat` ticks of a logical clock. -/
structure ConversionJob where
  jobId : Nat
  inputPath : String
  outputPath : String
  originalFilename : String
  status : JobStatus
  progress : Int
  createdAt : Nat
  completedAt : Option Nat
  error : Option String
  metadata : Option AudioMetadata
deriving DecidableEq, Repr

/-- The in-memory registry `Map<string, ConversionJob>` as an association list. -/
abbrev JobMap := List (Nat × ConversionJob)

/-- `this.jobs.get(jobId)`. -/
def findJob : JobMap → Nat → Option ConversionJob
  | [], _ => none
  | (k, j) :: rest, id => if k = id then some j else findJob rest id

/-- In-place mutation of the record held in the registry
(`job.status = ...` etc. acts on the object stored in the `Map`). -/
def updateJob : JobMap → Nat → (ConversionJob → ConversionJob) → JobMap
  | [], _, _ => []
  | (k, j) :: rest, id, f =>
    (k, if k = id then f j else j) :: updateJob rest id f

/-- State of one `ConversionService` instance plus ghost instrumentation. -/
structure State where
  jobs : JobMap
  queue : List Nat
  processing : List Nat
  maxConcurrentJobs : Nat
  nextId : Nat
  clock : Nat
  /-- ids whose `setTimeout` watchdog (ConversionService.ts line 161) is
  armed and has neither fired nor been cleared. -/
  timers : List Nat
  /-- ids whose `ffmpegWrapper.extractAudio` promise is outstanding. -/
  pending : List Nat
  /-- ghost: one entry per `clearTimeout(timeoutId)` call, per job. -/
  clearCalls : List Nat
  /-- ghost: one entry per `this.processing.delete(jobId)` call, per job. -/
  deleteCalls : List Nat
  /-- ghost: one entry per `this.processNextJob()` call made by a
  termination path (timeout handler or the `finally` block), per job. -/
  admitCalls : List Nat
  /-- ghost: one entry per `fileManager.cleanupJob(jobId)` call. -/
  cleanupCalls : List Nat
deriving Repr

/-- The admission mutation inside `processNextJob`
(ConversionService.ts lines 147-150). -/
def markProcessing (j : ConversionJob) : ConversionJob :=
  { j with status := .processing, progress := 0 }

/-- The dequeue loop of `processNextJob` (lines 137-153): pop the head,
skip it when its record is gone (the defensive `if (!job)` retry),
otherwise reserve the slot and start the job (arming its watchdog and
issuing the engine call). -/
def dequeueAdmit (s : State) : List Nat → State
  | [] => { s with queue := [] }
  | id :: rest =>
    match findJob s.jobs id with
    | none => dequeueAdmit s rest
    | some _ =>
      { s with
        queue := rest
        processing := s.processing ++ [id]
        jobs := updateJob s.jobs id markProcessing
        timers := id :: s.timers
        pending := id :: s.pending }

/-- `processNextJob` (ConversionService.ts lines 126-154): return unless a
slot is free, then admit the first queued id that still has a record. -/
def processNextJob (s : State) : State :=
  if s.maxConcurrentJobs ≤ s.processing.length then s
  else dequeueAdmit s s.queue

/-- `queueJob` (lines 40-60): fresh id, record with status `queued` and
progress 0, push onto the FIFO queue, then attempt admission. -/
def queueJobFn (s : State) (inP outP origName : String) : State × Nat :=
  let id := s.nextId
  let job : ConversionJob :=
    { jobId := id, inputPath := inP, outputPath := outP, originalFilename := origName
      status := .queued, progress := 0, createdAt := s.clock
      completedAt := none, error := none, metadata := none }
  let s1 := { s with jobs := (id, job) :: s.jobs, queue := s.queue ++ [id], nextId := id + 1 }
  (processNextJob s1, id)

/-- `cancelJob` (lines 86-120): only `queued`/`processing` jobs can be
cancelled; a queued job is spliced out of the queue, a processing job is
removed from the processing set; then status `cancelled`, `completedAt`,
and a `fileManager.cleanupJob` call. -/
def cancelJobFn (s : State) (id : Nat) : State × Bool :=
  match findJob s.jobs id with
  | none => (s, false)
  | some job =>
    if job.status ≠ .queued ∧ job.status ≠ .processing then (s, false)
    else
      let s1 := if job.status = .queued then { s with queue := s.queue.erase id } else s
      let s2 :=
        if job.status = .processing then
          { s1 with processing := s1.processing.erase id, deleteCalls := s1.deleteCalls ++ [id] }
        else s1
      let s3 :=
        { s2 with
          jobs := updateJob s2.jobs id
            (fun j => { j with status := .cancelled, completedAt := some s.clock })
          cleanupCalls := s2.cleanupCalls ++ [id] }
      (s3, true)

/-- The `finally` block of `processJob` (lines 203-209): remove the job
from the processing set and attempt admission of the next queued job. -/
def finallyBlock (s : State) (id : Nat) : State :=
  let s1 := { s with
    processing := s.processing.erase id
    deleteCalls := s.deleteCalls ++ [id]
    admitCalls := s.admitCalls ++ [id] }
  processNextJob s1

/-- The watchdog callback of `processJob` (lines 161-168), runnable only
while the timer is armed: mark the job failed with the timeout error, set
`completedAt`, release the slot, attempt admission.  It does not consult
the job's current status. -/
def timeoutFireFn (s : State) (id : Nat) : State :=
  if id ∈ s.timers then
    let s1 := { s with timers := s.timers.erase id }
    let s2 := { s1 with
      jobs := updateJob s1.jobs id
        (fun j => { j with
          status := .failed
          error := some "Conversion timeout exceeded"
          completedAt := some s.clock })
      processing := s1.processing.erase id
      deleteCalls := s1.deleteCalls ++ [id]
      admitCalls := s1.admitCalls ++ [id] }
    processNextJob s2
  else s

/-- Engine success (lines 183-195): if the job was cancelled meanwhile the
result is discarded (`clearTimeout` and `return`, the `finally` block still
runs); otherwise status `completed`, progress forced to 100, metadata
attached, `completedAt` set, timer cleared; then the `finally` block. -/
def engineSuccessFn (s : State) (id : Nat) (meta : AudioMetadata) : State :=
  if id ∈ s.pending then
    let s1 := { s with pending := s.pending.erase id }
    match findJob s1.jobs id with
    | none => finallyBlock s1 id
    | some job =>
      if job.status = .cancelled then
        finallyBlock { s1 with timers := s1.timers.erase id, clearCalls := s1.clearCalls ++ [id] } id
      else
        let s2 := { s1 with
          jobs := updateJob s1.jobs id
            (fun j => { j with
              status := .completed
              progress := 100
              metadata := some meta
              completedAt := some s.clock })
          timers := s1.timers.erase id
          clearCalls := s1.clearCalls ++ [id] }
        finallyBlock s2 id
  else s

/-- `error instanceof Error ? error.message : 'Unknown error occurred'`
(line 201): `some m` models a thrown `Error` with message `m`. -/
def errMessage : Option String → String
  | some m => m
  | none => "Unknown error occurred"

/-- The `catch` branch of `processJob` (lines 196-202): clear the timer,
mark the job failed with a non-empty description, set `completedAt`; then
the `finally` block.  It does not consult the job's current status. -/
def engineFailureFn (s : State) (id : Nat) (emsg : Option String) : State :=
  if id ∈ s.pending then
    let s1 := { s with
      pending := s.pending.erase id
      timers := s.timers.erase id
      clearCalls := s.clearCalls ++ [id] }
    let s2 := { s1 with
      jobs := updateJob s1.jobs id
        (fun j => { j with
          status := .failed
          error := some (errMessage emsg)
          completedAt := some s.clock }) }
    finallyBlock s2 id
  else s

/-- The progress closure of `processJob` (lines 175-180):
`if (percent > job.progress) job.progress = Math.min(100, percent)`. -/
def updateProgress (j : ConversionJob) (percent : Int) : ConversionJob :=
  if j.progress < percent then { j with progress := min 100 percent } else j

/-- A progress callback delivered while the engine call is outstanding. -/
def progressCbFn (s : State) (id : Nat) (percent : Int) : State :=
  if id ∈ s.pending then
    { s with jobs := updateJob s.jobs id (fun j => updateProgress j percent) }
  else s

/-- The interleavable events of one service instance. -/
inductive Event where
  | submit (inP outP origName : String)
  | cancel (id : Nat)
  | timeout (id : Nat)
  | engineSuccess (id : Nat) (meta : AudioMetadata)
  | engineFailure (id : Nat) (emsg : Option String)
  | progress (id : Nat) (percent : Int)
deriving DecidableEq, Repr

/-- One step: the logical clock ticks, then the event's handler runs. -/
def step (s : State) : Event → State
  | .submit i o n => (queueJobFn { s with clock := s.clock + 1 } i o n).1
  | .cancel id => (cancelJobFn { s with clock := s.clock + 1 } id).1
  | .timeout id => timeoutFireFn { s with clock := s.clock + 1 } id
  | .engineSuccess id m => engineSuccessFn { s with clock := s.clock + 1 } id m
  | .engineFailure id e => engineFailureFn { s with clock := s.clock + 1 } id e
  | .progress id p => progressCbFn { s with clock := s.clock + 1 } id p

/-- The freshly constructed service (ConversionService.ts lines 21-34). -/
def initState (c : Nat) : State :=
  { jobs := [], queue := [], processing := [], maxConcurrentJobs := c
    nextId := 0, clock := 0, timers := [], pending := []
    clearCalls := [], deleteCalls := [], admitCalls := [], cleanupCalls := [] }

/-- Run a trace from a given state. -/
def runFrom (s : State) (es : List Event) : State := es.foldl step s

/-- Run a trace on a fresh service with concurrency bound `c`. -/
def run (c : Nat) (es : List Event) : State := runFrom (initState c) es

/-- `getJobStatus` projection (lines 66-80), restricted to the fields the
claims mention. -/
structure ConversionStatus where
  jobId : Nat
  status : JobStatus
  progress : Int
  outputFile : Option String
deriving DecidableEq, Repr

/-- `getJobStatus` (lines 66-80): `null` for unknown ids, otherwise the
read-only projection, with the output path exposed iff completed. -/
def getJobStatus (s : State) (id : Nat) : Option ConversionStatus :=
  (findJob s.jobs id).map fun j =>
    { jobId := j.jobId, status := j.status, progress := j.progress
      outputFile := if j.status = .completed then some j.outputPath else none }

/-- The progress visible through `getJobStatus` after `k` events of a trace. -/
def progressAt (c : Nat) (es : List Event) (id : Nat) (k : Nat) : Option Int :=
  (getJobStatus (run c (es.take k)) id).map (·.progress)

/-- Ghost call counts for one job: (`clearTimeout`, `processing.delete`,
termination-path `processNextJob`) calls. -/
def ghostCounts (s : State) (id : Nat) : Nat × Nat × Nat :=
  (s.clearCalls.count id, s.deleteCalls.count id, s.admitCalls.count id)

/-!
Model of `FileManager.cleanupOldFiles` (FileManager.ts lines 108-147).
A directory listing entry carries the `Dirent` kind, the directory's
last-modified time, and whether the directory vanished between `readdir`
and `stat` (making the `stat` call throw, which the code skips over).
-/

/-- One entry of `fs.readdir(this.uploadsDir, { withFileTypes: true })`. -/
structure DirEntry where
  name : String
  isDirectory : Bool
  mtimeMs : Int
  vanished : Bool
deriving DecidableEq, Repr

/-- Result of a sweep: the returned count, the names removed (in scan
order), and the remaining `cleanupTimers` keys. -/
structure SweepResult where
  count : Nat
  removedNames : List String
  timers : List String
deriving DecidableEq, Repr

/-- The `for (const entry of entries)` loop of `cleanupOldFiles`: non-
directories are skipped; a vanished directory's `stat` throws and the
`catch` continues; otherwise the directory is removed, counted, and its
pending cleanup timer cancelled exactly when `now - mtimeMs > maxAgeMs`. -/
def cleanupLoop (now maxAgeMs : Int) : List DirEntry → List String → SweepResult
  | [], timers => ⟨0, [], timers⟩
  | e :: rest, timers =>
    if e.isDirectory then
      if e.vanished then cleanupLoop now maxAgeMs rest timers
      else if maxAgeMs < now - e.mtimeMs then
        let r := cleanupLoop now maxAgeMs rest (timers.erase e.name)
        ⟨r.count + 1, e.name :: r.removedNames, r.timers⟩
      else cleanupLoop now maxAgeMs rest timers
    else cleanupLoop now maxAgeMs rest timers

/-- `cleanupOldFiles(maxAgeMs)`: when the uploads directory is missing the
`readdir` throws `ENOENT` and the sweep returns 0 having removed nothing;
otherwise the scan loop runs over the listing. -/
def cleanupOldFiles (now maxAgeMs : Int) (dirExists : Bool)
    (entries : List DirEntry) (timers : List String) : SweepResult :=
  if dirExists then cleanupLoop now maxAgeMs entries timers
  else ⟨0, [], timers⟩

/-- The removal predicate of the sweep, read off the source: a real
directory, still present at `stat` time, strictly older than the cutoff. -/
def sweepRemoves (now maxAgeMs : Int) (e : DirEntry) : Bool :=
  e.isDirectory && !e.vanished && decide (maxAgeMs < now - e.mtimeMs)

/-! ### Basic lemmas about the registry -/

theorem findJob_updateJob_self (m : JobMap) (id : Nat) (f : ConversionJob → ConversionJob) :
    findJob (updateJob m id f) id = (findJob m id).map f := by
  induction m with
  | nil => rfl
  | cons p rest ih =>
    obtain ⟨k, j⟩ := p
    by_cases h : k = id <;> simp [updateJob, findJob, h, ih]

theorem findJob_updateJob_ne (m : JobMap) (id y : Nat) (f : ConversionJob → ConversionJob)
    (h : y ≠ id) : findJob (updateJob m id f) y = findJob m y := by
  induction m with
  | nil => rfl
  | cons p rest ih =>
    obtain ⟨k, j⟩ := p
    by_cases hy : k = y
    · subst hy
      simp [updateJob, findJob, h, ih]
    · simp [updateJob, findJob, hy, ih]

/-! ### Lemmas about folded timer cancellation -/

theorem not_mem_foldl_erase_of_not_mem (ns : List String) (l : List String) (n : String)
    (h : n ∉ l) : n ∉ ns.foldl (fun acc a => acc.erase a) l := by
  induction ns generalizing l with
  | nil => simpa using h
  | cons a tl ih =>
    simpa [List.foldl_cons] using ih (l.erase a) fun hm => h (List.mem_of_mem_erase hm)

theorem not_mem_foldl_erase (ns l : List String) (n : String) (hl : l.Nodup) (hn : n ∈ ns) :
    n ∉ ns.foldl (fun acc a => acc.erase a) l := by
  induction ns generalizing l with
  | nil => cases hn
  | cons a tl ih =>
    rcases List.mem_cons.mp hn with h | h
    · subst h
      simpa [List.foldl_cons] using
        not_mem_foldl_erase_of_not_mem tl (l.erase n) n hl.not_mem_erase
    · simpa [List.foldl_cons] using ih (l.erase a) (hl.erase a) h

/-! ### The sweep loop computes the filter of strictly-too-old directories -/

theorem cleanupLoop_spec (now maxAgeMs : Int) (entries : List DirEntry) (timers : List String) :
    cleanupLoop now maxAgeMs entries timers =
      ⟨((entries.filter (sweepRemoves now maxAgeMs)).map (·.name)).length,
       (entries.filter (sweepRemoves now maxAgeMs)).map (·.name),
       ((entries.filter (sweepRemoves now maxAgeMs)).map (·.name)).foldl
         (fun acc a => acc.erase a) timers⟩ := by
  induction entries generalizing timers with
  | nil => rfl
  | cons e rest ih =>
    by_cases hd : e.isDirectory
    · by_cases hv : e.vanished
      · simp [cleanupLoop, hd, hv, sweepRemoves, ih]
      · by_cases hage : maxAgeMs < now - e.mtimeMs
        · simp [cleanupLoop, hd, hv, hage, sweepRemoves, ih]
        · simp [cleanupLoop, hd, hv, hage, sweepRemoves, ih]
    · simp [cleanupLoop, hd, sweepRemoves, ih]

/-- C9: `cleanupOldFiles(maxAgeMs)` removes exactly the directories whose
age `now - mtimeMs` is strictly greater than `maxAgeMs` and returns their
count; a directory at or below the threshold, a non-directory entry, or a
directory that vanished between `readdir` and `stat` is retained or
skipped and never counted; pending cleanup timers of removed directories
are cancelled; and a missing uploads directory yields a clean zero. -/
theorem cleanupOldFiles_removes_exactly_old (now maxAgeMs : Int)
    (entries : List DirEntry) (timers : List String)
    (htn : timers.Nodup) (hen : (entries.map (·.name)).Nodup) :
    (cleanupOldFiles now maxAgeMs true entries timers).removedNames
      = (entries.filter (sweepRemoves now maxAgeMs)).map (·.name) ∧
    (cleanupOldFiles now maxAgeMs true entries timers).count
      = ((entries.filter (sweepRemoves now maxAgeMs)).map (·.name)).length ∧
    (∀ e ∈ entries, e.vanished = true ∨ now - e.mtimeMs ≤ maxAgeMs →
      e.name ∉ (cleanupOldFiles now maxAgeMs true entries timers).removedNames) ∧
    (∀ n ∈ (cleanupOldFiles now maxAgeMs true entries timers).removedNames,
      n ∉ (cleanupOldFiles now maxAgeMs true entries timers).timers) ∧
    cleanupOldFiles now maxAgeMs false entries timers = ⟨0, [], timers⟩ := by
  have hspec := cleanupLoop_spec now maxAgeMs entries timers
  have hrun : cleanupOldFiles now maxAgeMs true entries timers
      = cleanupLoop now maxAgeMs entries timers := rfl
  refine ⟨by rw [hrun, hspec], by rw [hrun, hspec], ?_, ?_, rfl⟩
  · intro e he hcond hmem
    rw [hrun, hspec] at hmem
    simp only [List.mem_map] at hmem
    obtain ⟨e', he', hname⟩ := hmem
    have he'mem : e' ∈ entries := List.mem_of_mem_filter he'
    have he'rem : sweepRemoves now maxAgeMs e' = true := List.of_mem_filter he'
    have : e' = e := List.inj_on_of_nodup_map hen he'mem he hname
    subst this
    simp only [sweepRemoves, Bool.and_eq_true, Bool.not_eq_true', decide_eq_true_eq] at he'rem
    rcases hcond with hv | hage
    · exact absurd he'rem.1.2 (by simp [hv])
    · omega
  · intro n hn
    rw [hrun, hspec] at hn ⊢
    exact not_mem_foldl_erase _ timers n htn hn

/-- Witness for `cleanupOldFiles_removes_exactly_old` at a concrete
listing: two directories (one too old, one fresh), a plain file, and a
vanished directory, with a pending timer on the removed one. -/
theorem cleanupOldFiles_removes_exactly_old_witness :
    (cleanupOldFiles 1000 100 true
        [⟨"a", true, 0, false⟩, ⟨"b", true, 950, false⟩,
         ⟨"c", false, 0, false⟩, ⟨"d", true, 0, true⟩]
        ["a", "b"]).removedNames
      = ([⟨"a", true, 0, false⟩, ⟨"b", true, 950, false⟩,
          ⟨"c", false, 0, false⟩, ⟨"d", true, 0, true⟩].filter
            (sweepRemoves 1000 100)).map (·.name) ∧
    (cleanupOldFiles 1000 100 true
        [⟨"a", true, 0, false⟩, ⟨"b", true, 950, false⟩,
         ⟨"c", false, 0, false⟩, ⟨"d", true, 0, true⟩]
        ["a", "b"]).count
      = (([⟨"a", true, 0, false⟩, ⟨"b", true, 950, false⟩,
           ⟨"c", false, 0, false⟩, ⟨"d", true, 0, true⟩].filter
            (sweepRemoves 1000 100)).map (·.name)).length ∧
    (∀ e ∈ [(⟨"a", true, 0, false⟩ : DirEntry), ⟨"b", true, 950, false⟩,
            ⟨"c", false, 0, false⟩, ⟨"d", true, 0, true⟩],
      e.vanished = true ∨ 1000 - e.mtimeMs ≤ 100 →
      e.name ∉ (cleanupOldFiles 1000 100 true
        [⟨"a", true, 0, false⟩, ⟨"b", true, 950, false⟩,
         ⟨"c", false, 0, false⟩, ⟨"d", true, 0, true⟩]
        ["a", "b"]).removedNames) ∧
    (∀ n ∈ (cleanupOldFiles 1000 100 true
        [⟨"a", true, 0, false⟩, ⟨"b", true, 950, false⟩,
         ⟨"c", false, 0, false⟩, ⟨"d", true, 0, true⟩]
        ["a", "b"]).removedNames,
      n ∉ (cleanupOldFiles 1000 100 true
        [⟨"a", true, 0, false⟩, ⟨"b", true, 950, false⟩,
         ⟨"c", false, 0, false⟩, ⟨"d", true, 0, true⟩]
        ["a", "b"]).timers) ∧
    cleanupOldFiles 1000 100 false
        [⟨"a", true, 0, false⟩, ⟨"b", true, 950, false⟩,
         ⟨"c", false, 0, false⟩, ⟨"d", true, 0, true⟩]
        ["a", "b"] = ⟨0, [], ["a", "b"]⟩ :=
  cleanupOldFiles_removes_exactly_old 1000 100
    [⟨"a", true, 0, false⟩, ⟨"b", true, 950, false⟩,
     ⟨"c", false, 0, false⟩, ⟨"d", true, 0, true⟩]
    ["a", "b"] (by decide) (by decide)

/-- Fixed engine result used in concrete traces. -/
def sampleMeta : AudioMetadata := ⟨44100, 16, 2, 0, "aac", 0⟩

/-- C10: the progress closure compares the reported value only against the
stored progress, never against the status: whenever the report strictly
exceeds the stored value it is applied (clamped to 100) with status,
error, and `completedAt` untouched, so a late callback can still raise the
progress of a job that is already cancelled, failed, or completed — shown
concretely on a trace where a cancelled job's progress rises to 50. -/
theorem progress_update_ignores_status (j : ConversionJob) (pc : Int)
    (h : j.progress < pc) :
    (updateProgress j pc).progress = min 100 pc ∧
    (updateProgress j pc).status = j.status ∧
    (updateProgress j pc).error = j.error ∧
    (updateProgress j pc).completedAt = j.completedAt ∧
    (j.progress < 100 → j.progress < (updateProgress j pc).progress) ∧
    (findJob (run 1 [.submit "in.mp4" "out.wav" "in.mp4", .cancel 0, .progress 0 50]).jobs
        0).map (fun j0 => (j0.status, j0.progress))
      = some (.cancelled, 50) := by
  refine ⟨by simp [updateProgress, h], by simp [updateProgress, h],
    by simp [updateProgress, h], by simp [updateProgress, h], ?_, by decide⟩
  intro h100
  simp only [updateProgress, if_pos h]
  exact lt_min h100 h

/-- Witness for `progress_update_ignores_status` at a cancelled job with
stored progress 40 receiving a late report of 70. -/
theorem progress_update_ignores_status_witness :
    (updateProgress ⟨0, "i", "o", "n", .cancelled, 40, 0, some 1, none, none⟩ 70).progress
        = min 100 70 ∧
    (updateProgress ⟨0, "i", "o", "n", .cancelled, 40, 0, some 1, none, none⟩ 70).status
        = JobStatus.cancelled ∧
    ((updateProgress ⟨0, "i", "o", "n", .cancelled, 40, 0, some 1, none, none⟩ 70).error
        = (none : Option String)) ∧
    ((updateProgress ⟨0, "i", "o", "n", .cancelled, 40, 0, some 1, none, none⟩ 70).completedAt
        = some 1) ∧
    ((40 : Int) < 100 →
      (40 : Int) < (updateProgress ⟨0, "i", "o", "n", .cancelled, 40, 0, some 1, none, none⟩
        70).progress) ∧
    (findJob (run 1 [.submit "in.mp4" "out.wav" "in.mp4", .cancel 0, .progress 0 50]).jobs
        0).map (fun j0 => (j0.status, j0.progress))
      = some (.cancelled, 50) :=
  progress_update_ignores_status ⟨0, "i", "o", "n", .cancelled, 40, 0, some 1, none, none⟩ 70
    (by decide)

/-! ### Effect of admission on records outside the queue, and on ghosts -/

theorem dequeueAdmit_find_of_not_mem (s : State) (q : List Nat) (y : Nat) (hy : y ∉ q) :
    findJob (dequeueAdmit s q).jobs y = findJob s.jobs y := by
  induction q with
  | nil => rfl
  | cons id rest ih =>
    have hyr : y ∉ rest := fun h => hy (List.mem_cons_of_mem id h)
    have hyid : y ≠ id := fun h => hy (h ▸ List.mem_cons_self id rest)
    cases h : findJob s.jobs id with
    | none => simpa [dequeueAdmit, h] using ih hyr
    | some j => simp [dequeueAdmit, h, findJob_updateJob_ne s.jobs id y _ hyid]

theorem processNextJob_find_of_not_mem (s : State) (y : Nat) (hy : y ∉ s.queue) :
    findJob (processNextJob s).jobs y = findJob s.jobs y := by
  unfold processNextJob
  split
  · rfl
  · exact dequeueAdmit_find_of_not_mem s s.queue y hy

theorem finallyBlock_find_of_not_mem (s : State) (id y : Nat) (hy : y ∉ s.queue) :
    findJob (finallyBlock s id).jobs y = findJob s.jobs y := by
  unfold finallyBlock
  exact processNextJob_find_of_not_mem _ y hy

theorem dequeueAdmit_ghost (s : State) (q : List Nat) :
    (dequeueAdmit s q).clearCalls = s.clearCalls ∧
    (dequeueAdmit s q).deleteCalls = s.deleteCalls ∧
    (dequeueAdmit s q).admitCalls = s.admitCalls ∧
    (dequeueAdmit s q).cleanupCalls = s.cleanupCalls := by
  induction q with
  | nil => exact ⟨rfl, rfl, rfl, rfl⟩
  | cons id rest ih =>
    cases h : findJob s.jobs id with
    | none => simpa [dequeueAdmit, h] using ih
    | some j => simp [dequeueAdmit, h]

theorem processNextJob_ghost (s : State) :
    (processNextJob s).clearCalls = s.clearCalls ∧
    (processNextJob s).deleteCalls = s.deleteCalls ∧
    (processNextJob s).admitCalls = s.admitCalls ∧
    (processNextJob s).cleanupCalls = s.cleanupCalls := by
  unfold processNextJob
  split
  · exact ⟨rfl, rfl, rfl, rfl⟩
  · exact dequeueAdmit_ghost s s.queue

theorem processNextJob_clearCalls (s : State) :
    (processNextJob s).clearCalls = s.clearCalls := (processNextJob_ghost s).1

theorem processNextJob_deleteCalls (s : State) :
    (processNextJob s).deleteCalls = s.deleteCalls := (processNextJob_ghost s).2.1

theorem processNextJob_admitCalls (s : State) :
    (processNextJob s).admitCalls = s.admitCalls := (processNextJob_ghost s).2.2.1

theorem processNextJob_cleanupCalls (s : State) :
    (processNextJob s).cleanupCalls = s.cleanupCalls := (processNextJob_ghost s).2.2.2

/-- C3: if the job's status is `cancelled` at the moment the engine reports
success, the success is discarded entirely: the registry record — status,
progress, result metadata, and `completedAt` — is left untouched. -/
theorem late_success_discarded_for_cancelled (s : State) (id : Nat) (meta : AudioMetadata)
    (j : ConversionJob) (hj : findJob s.jobs id = some j) (hc : j.status = .cancelled)
    (hq : id ∉ s.queue) :
    findJob (engineSuccessFn s id meta).jobs id = some j := by
  unfold engineSuccessFn
  by_cases hp : id ∈ s.pending
  · have h1 : findJob ({ s with pending := s.pending.erase id } : State).jobs id = some j := hj
    simp only [hp, if_pos, h1, hc]
    exact (finallyBlock_find_of_not_mem _ id id (by exact hq)).trans hj
  · simpa [hp] using hj

/-- Witness for `late_success_discarded_for_cancelled`: a job cancelled
mid-execution whose engine success arrives afterwards. -/
theorem late_success_discarded_for_cancelled_witness :
    findJob (engineSuccessFn (run 1 [.submit "i" "o" "n", .cancel 0]) 0 sampleMeta).jobs 0
      = some ⟨0, "i", "o", "n", .cancelled, 0, 1, some 2, none, none⟩ :=
  late_success_discarded_for_cancelled (run 1 [.submit "i" "o" "n", .cancel 0]) 0 sampleMeta
    ⟨0, "i", "o", "n", .cancelled, 0, 1, some 2, none, none⟩
    (by decide) (by decide) (by decide)

/-- C1 fails on the code: after the watchdog marks job 0 failed (with
`completedAt` set at tick 2), a later engine success re-transitions it to
`completed` and overwrites `completedAt` to tick 3 — the success check in
`processJob` only guards against `cancelled`, not `failed`, so the timeout
does not win. -/
theorem timeout_then_success_overwrites :
    (findJob (run 1 [.submit "i" "o" "n", .timeout 0]).jobs 0).map
        (fun j => (j.status, j.completedAt)) = some (.failed, some 2) ∧
    (findJob (run 1 [.submit "i" "o" "n", .timeout 0, .engineSuccess 0 sampleMeta]).jobs 0).map
        (fun j => (j.status, j.completedAt)) = some (.completed, some 3) := by
  constructor <;> decide

/-- C1 (amended): a job's terminal state is not immutable against engine
settlement. If the watchdog has marked a job failed and the engine later
reports success, the job is re-transitioned to `completed`, progress is
forced to 100, metadata is attached, and `completedAt` is overwritten —
the engine settlement wins over the timeout; only a `cancelled` status
suppresses a late success. -/
theorem engine_success_overrides_timeout_failure (s : State) (id : Nat) (meta : AudioMetadata)
    (j : ConversionJob) (hj : findJob s.jobs id = some j) (hf : j.status = .failed)
    (hp : id ∈ s.pending) (hq : id ∉ s.queue) :
    findJob (engineSuccessFn s id meta).jobs id
      = some { j with
          status := .completed, progress := 100
          metadata := some meta, completedAt := some s.clock } := by
  unfold engineSuccessFn
  have h1 : findJob ({ s with pending := s.pending.erase id } : State).jobs id = some j := hj
  have hnc : ¬ j.status = .cancelled := by rw [hf]; intro h; cases h
  simp only [hp, if_pos, h1, hnc, if_neg, if_false]
  refine (finallyBlock_find_of_not_mem _ id id (by exact hq)).trans ?_
  rw [show ({ s with pending := s.pending.erase id } : State).jobs = s.jobs from rfl]
  rw [findJob_updateJob_self, hj]
  rfl

/-- Witness for `engine_success_overrides_timeout_failure`: the state after
submitting one job and letting its watchdog fire. -/
theorem engine_success_overrides_timeout_failure_witness :
    findJob (engineSuccessFn (run 1 [.submit "i" "o" "n", .timeout 0]) 0 sampleMeta).jobs 0
      = some ⟨0, "i", "o", "n", .completed, 100, 1,
          some (run 1 [.submit "i" "o" "n", .timeout 0]).clock,
          some "Conversion timeout exceeded", some sampleMeta⟩ :=
  engine_success_overrides_timeout_failure (run 1 [.submit "i" "o" "n", .timeout 0]) 0 sampleMeta
    ⟨0, "i", "o", "n", .failed, 0, 1, some 2, some "Conversion timeout exceeded", none⟩
    (by decide) (by decide) (by decide) (by decide)

/-- C2 fails on the code: when the watchdog fires and the engine later
settles successfully, the slot release (`processing.delete`) and the
admission attempt (`processNextJob`) are each performed twice for the same
job — the losing trigger duplicates them. -/
theorem timeout_race_duplicates_release :
    (run 1 [.submit "i" "o" "n", .timeout 0, .engineSuccess 0 sampleMeta]).deleteCalls.count 0
        = 2 ∧
    (run 1 [.submit "i" "o" "n", .timeout 0, .engineSuccess 0 sampleMeta]).admitCalls.count 0
        = 2 := by
  constructor <;> decide

/-- C2 (amended): each single termination trigger performs a fixed set of
actions exactly once — an engine settlement (success or failure) issues
exactly one timer disarm, one slot release, and one admission attempt; a
watchdog firing issues one slot release and one admission attempt (no
disarm call — its timer has fired); cancelling a processing job issues one
slot release and no admission attempt.  Consequently a lone settlement
performs each action exactly once over the whole lifecycle (shown on
concrete traces), but when the timeout fires before the engine settles the
release and the admission attempt are duplicated, one per trigger. -/
theorem termination_actions_per_trigger (s : State) (id : Nat) (meta : AudioMetadata)
    (emsg : Option String) (j : ConversionJob)
    (hj : findJob s.jobs id = some j) (hp : id ∈ s.pending) (ht : id ∈ s.timers) :
    ghostCounts (engineSuccessFn s id meta) id
      = (s.clearCalls.count id + 1, s.deleteCalls.count id + 1, s.admitCalls.count id + 1) ∧
    ghostCounts (engineFailureFn s id emsg) id
      = (s.clearCalls.count id + 1, s.deleteCalls.count id + 1, s.admitCalls.count id + 1) ∧
    ghostCounts (timeoutFireFn s id) id
      = (s.clearCalls.count id, s.deleteCalls.count id + 1, s.admitCalls.count id + 1) ∧
    (j.status = .processing →
      ghostCounts (cancelJobFn s id).1 id
        = (s.clearCalls.count id, s.deleteCalls.count id + 1, s.admitCalls.count id)) ∧
    ghostCounts (run 1 [.submit "i" "o" "n", .engineSuccess 0 sampleMeta]) 0 = (1, 1, 1) ∧
    ghostCounts (run 1 [.submit "i" "o" "n", .engineFailure 0 (some "boom")]) 0 = (1, 1, 1) := by
  refine ⟨?_, ?_, ?_, ?_, by decide, by decide⟩
  · unfold engineSuccessFn
    have h1 : findJob ({ s with pending := s.pending.erase id } : State).jobs id = some j := hj
    simp only [hp, if_pos, h1]
    by_cases hc : j.status = .cancelled
    · rw [if_pos hc]
      simp [ghostCounts, finallyBlock, processNextJob_clearCalls, processNextJob_deleteCalls,
        processNextJob_admitCalls, List.count_append]
    · rw [if_neg hc]
      simp [ghostCounts, finallyBlock, processNextJob_clearCalls, processNextJob_deleteCalls,
        processNextJob_admitCalls, List.count_append]
  · unfold engineFailureFn
    simp only [hp, if_pos]
    simp [ghostCounts, finallyBlock, processNextJob_clearCalls, processNextJob_deleteCalls,
      processNextJob_admitCalls, List.count_append]
  · unfold timeoutFireFn
    simp only [ht, if_pos]
    simp [ghostCounts, processNextJob_clearCalls, processNextJob_deleteCalls,
      processNextJob_admitCalls, List.count_append]
  · intro hproc
    unfold cancelJobFn
    have hne : ¬ (j.status ≠ .queued ∧ j.status ≠ .processing) := by
      rw [hproc]; intro hcontra; exact hcontra.2 rfl
    have hnq : ¬ j.status = .queued := by rw [hproc]; intro h; cases h
    simp only [hj, hne, if_neg, if_false, hnq, hproc, if_pos, ghostCounts]
    simp [List.count_append]

/-- Witness for `termination_actions_per_trigger`: a single admitted job
whose watchdog is armed and whose engine call is outstanding. -/
theorem termination_actions_per_trigger_witness :
    ghostCounts (engineSuccessFn (run 1 [.submit "i" "o" "n"]) 0 sampleMeta) 0
      = ((run 1 [.submit "i" "o" "n"]).clearCalls.count 0 + 1,
         (run 1 [.submit "i" "o" "n"]).deleteCalls.count 0 + 1,
         (run 1 [.submit "i" "o" "n"]).admitCalls.count 0 + 1) ∧
    ghostCounts (engineFailureFn (run 1 [.submit "i" "o" "n"]) 0 (some "boom")) 0
      = ((run 1 [.submit "i" "o" "n"]).clearCalls.count 0 + 1,
         (run 1 [.submit "i" "o" "n"]).deleteCalls.count 0 + 1,
         (run 1 [.submit "i" "o" "n"]).admitCalls.count 0 + 1) ∧
    ghostCounts (timeoutFireFn (run 1 [.submit "i" "o" "n"]) 0) 0
      = ((run 1 [.submit "i" "o" "n"]).clearCalls.count 0,
         (run 1 [.submit "i" "o" "n"]).deleteCalls.count 0 + 1,
         (run 1 [.submit "i" "o" "n"]).admitCalls.count 0 + 1) ∧
    ((⟨0, "i", "o", "n", .processing, 0, 1, none, none, none⟩ : ConversionJob).status
        = .processing →
      ghostCounts (cancelJobFn (run 1 [.submit "i" "o" "n"]) 0).1 0
        = ((run 1 [.submit "i" "o" "n"]).clearCalls.count 0,
           (run 1 [.submit "i" "o" "n"]).deleteCalls.count 0 + 1,
           (run 1 [.submit "i" "o" "n"]).admitCalls.count 0)) ∧
    ghostCounts (run 1 [.submit "i" "o" "n", .engineSuccess 0 sampleMeta]) 0 = (1, 1, 1) ∧
    ghostCounts (run 1 [.submit "i" "o" "n", .engineFailure 0 (some "boom")]) 0 = (1, 1, 1) :=
  termination_actions_per_trigger (run 1 [.submit "i" "o" "n"]) 0 sampleMeta (some "boom")
    ⟨0, "i", "o", "n", .processing, 0, 1, none, none, none⟩
    (by decide) (by decide) (by decide)

/-- C4: `cancelJob` succeeds exactly on jobs that exist and are `queued`
or `processing`; on success the record becomes `cancelled` with
`completedAt` set and file cleanup is triggered, a queued job is removed
from the FIFO queue (so it can never be admitted) with the processing set
untouched, and a processing job is removed from the processing set with
the queue untouched; on failure the state is returned unchanged. -/
theorem cancelJob_spec (s : State) (id : Nat)
    (hqn : s.queue.Nodup) (hpn : s.processing.Nodup) :
    ((cancelJobFn s id).2 = true ↔
      ∃ j, findJob s.jobs id = some j ∧ (j.status = .queued ∨ j.status = .processing)) ∧
    ((cancelJobFn s id).2 = false → (cancelJobFn s id).1 = s) ∧
    (∀ j, findJob s.jobs id = some j → j.status = .queued ∨ j.status = .processing →
      findJob (cancelJobFn s id).1.jobs id
          = some { j with status := .cancelled, completedAt := some s.clock } ∧
      (cancelJobFn s id).1.cleanupCalls = s.cleanupCalls ++ [id] ∧
      (j.status = .queued →
        (cancelJobFn s id).1.queue = s.queue.erase id ∧
        id ∉ (cancelJobFn s id).1.queue ∧
        (cancelJobFn s id).1.processing = s.processing) ∧
      (j.status = .processing →
        (cancelJobFn s id).1.processing = s.processing.erase id ∧
        id ∉ (cancelJobFn s id).1.processing ∧
        (cancelJobFn s id).1.queue = s.queue)) := by
  refine ⟨⟨?_, ?_⟩, ?_, ?_⟩
  · intro htrue
    cases h : findJob s.jobs id with
    | none => simp [cancelJobFn, h] at htrue
    | some job =>
      refine ⟨job, rfl, ?_⟩
      by_cases hc : job.status ≠ .queued ∧ job.status ≠ .processing
      · simp [cancelJobFn, h, hc] at htrue
      · rcases not_and_or.mp hc with h1 | h2
        · exact Or.inl (not_not.mp h1)
        · exact Or.inr (not_not.mp h2)
  · rintro ⟨j, hj, hst⟩
    have hc : ¬ (j.status ≠ .queued ∧ j.status ≠ .processing) := by tauto
    simp [cancelJobFn, hj, hc]
  · intro hfalse
    cases h : findJob s.jobs id with
    | none => simp [cancelJobFn, h]
    | some job =>
      by_cases hc : job.status ≠ .queued ∧ job.status ≠ .processing
      · simp [cancelJobFn, h, hc]
      · simp [cancelJobFn, h, hc] at hfalse
  · intro j hj hst
    by_cases hq : j.status = .queued
    · have hnp : ¬ j.status = .processing := by rw [hq]; intro h; cases h
      have hc : ¬ (j.status ≠ .queued ∧ j.status ≠ .processing) := by tauto
      refine ⟨?_, ?_, ?_, ?_⟩
      · simp only [cancelJobFn, hj, hc, if_neg, if_false, hq, if_pos, hnp]
        simp [findJob_updateJob_self, hj]
      · simp [cancelJobFn, hj, hc, hq, hnp]
      · intro _
        refine ⟨?_, ?_, ?_⟩
        · simp [cancelJobFn, hj, hc, hq, hnp]
        · simp only [cancelJobFn, hj, hc, if_neg, if_false, hq, if_pos, hnp]
          exact hqn.not_mem_erase
        · simp [cancelJobFn, hj, hc, hq, hnp]
      · intro hp; exact absurd hp hnp
    · have hp : j.status = .processing := hst.resolve_left hq
      have hc : ¬ (j.status ≠ .queued ∧ j.status ≠ .processing) := by tauto
      refine ⟨?_, ?_, ?_, ?_⟩
      · simp only [cancelJobFn, hj, hc, if_neg, if_false, hq, hp, if_pos]
        simp [findJob_updateJob_self, hj]
      · simp [cancelJobFn, hj, hc, hq, hp]
      · intro hq'; exact absurd hq' hq
      · intro _
        refine ⟨?_, ?_, ?_⟩
        · simp [cancelJobFn, hj, hc, hq, hp]
        · simp only [cancelJobFn, hj, hc, if_neg, if_false, hq, hp, if_pos]
          exact hpn.not_mem_erase
        · simp [cancelJobFn, hj, hc, hq, hp]

/-- Witness for `cancelJob_spec`: two submissions under concurrency bound
1, so job 1 is still queued when it is cancelled. -/
theorem cancelJob_spec_witness :
    (((cancelJobFn (run 1 [.submit "a" "b" "c", .submit "d" "e" "f"]) 1).2 = true ↔
      ∃ j, findJob (run 1 [.submit "a" "b" "c", .submit "d" "e" "f"]).jobs 1 = some j ∧
        (j.status = .queued ∨ j.status = .processing)) ∧
    ((cancelJobFn (run 1 [.submit "a" "b" "c", .submit "d" "e" "f"]) 1).2 = false →
      (cancelJobFn (run 1 [.submit "a" "b" "c", .submit "d" "e" "f"]) 1).1
        = run 1 [.submit "a" "b" "c", .submit "d" "e" "f"]) ∧
    (∀ j, findJob (run 1 [.submit "a" "b" "c", .submit "d" "e" "f"]).jobs 1 = some j →
      j.status = .queued ∨ j.status = .processing →
      findJob (cancelJobFn (run 1 [.submit "a" "b" "c", .submit "d" "e" "f"]) 1).1.jobs 1
          = some { j with
              status := .cancelled
              completedAt := some (run 1 [.submit "a" "b" "c", .submit "d" "e" "f"]).clock } ∧
      (cancelJobFn (run 1 [.submit "a" "b" "c", .submit "d" "e" "f"]) 1).1.cleanupCalls
          = (run 1 [.submit "a" "b" "c", .submit "d" "e" "f"]).cleanupCalls ++ [1] ∧
      (j.status = .queued →
        (cancelJobFn (run 1 [.submit "a" "b" "c", .submit "d" "e" "f"]) 1).1.queue
            = (run 1 [.submit "a" "b" "c", .submit "d" "e" "f"]).queue.erase 1 ∧
        1 ∉ (cancelJobFn (run 1 [.submit "a" "b" "c", .submit "d" "e" "f"]) 1).1.queue ∧
        (cancelJobFn (run 1 [.submit "a" "b" "c", .submit "d" "e" "f"]) 1).1.processing
            = (run 1 [.submit "a" "b" "c", .submit "d" "e" "f"]).processing) ∧
      (j.status = .processing →
        (cancelJobFn (run 1 [.submit "a" "b" "c", .submit "d" "e" "f"]) 1).1.processing
            = (run 1 [.submit "a" "b" "c", .submit "d" "e" "f"]).processing.erase 1 ∧
        1 ∉ (cancelJobFn (run 1 [.submit "a" "b" "c", .submit "d" "e" "f"]) 1).1.processing ∧
        (cancelJobFn (run 1 [.submit "a" "b" "c", .submit "d" "e" "f"]) 1).1.queue
            = (run 1 [.submit "a" "b" "c", .submit "d" "e" "f"]).queue))) :=
  cancelJob_spec (run 1 [.submit "a" "b" "c", .submit "d" "e" "f"]) 1 (by decide) (by decide)

/-- C8 fails on the code: after the watchdog marks job 0 failed, a later
engine success re-transitions it to `completed` without clearing the
`error` field, so a non-failed (completed) job carries a non-empty error. -/
theorem completed_job_with_stale_error :
    (findJob (run 1 [.submit "i" "o" "n", .timeout 0, .engineSuccess 0 sampleMeta]).jobs 0).map
        (fun j => (j.status, j.error))
      = some (.completed, some "Conversion timeout exceeded") := by
  decide

/-! ### Characterization of admission -/

/-- The first queued id that still has a live registry record — the job
`processNextJob`'s skip-and-retry loop ends up admitting. -/
def firstLive (m : JobMap) : List Nat → Option Nat
  | [] => none
  | id :: rest => if (findJob m id).isSome then some id else firstLive m rest

theorem dequeueAdmit_of_firstLive_none (s : State) (q : List Nat)
    (h : firstLive s.jobs q = none) :
    dequeueAdmit s q = { s with queue := [] } ∧ ∀ y ∈ q, findJob s.jobs y = none := by
  induction q with
  | nil => exact ⟨rfl, by simp⟩
  | cons id rest ih =>
    cases hf : findJob s.jobs id with
    | some j => simp [firstLive, hf] at h
    | none =>
      rw [firstLive] at h
      simp only [hf, Option.isSome_none, Bool.false_eq_true, if_false] at h
      obtain ⟨h1, h2⟩ := ih h
      refine ⟨by simp [dequeueAdmit, hf, h1], ?_⟩
      intro y hy
      rcases List.mem_cons.mp hy with rfl | hy
      · exact hf
      · exact h2 y hy

theorem dequeueAdmit_of_firstLive_some (s : State) (q : List Nat) (x : Nat)
    (h : firstLive s.jobs q = some x) :
    ∃ q1 q2, q = q1 ++ x :: q2 ∧ (∀ y ∈ q1, findJob s.jobs y = none) ∧
      (findJob s.jobs x).isSome ∧
      dequeueAdmit s q = { s with
        queue := q2
        processing := s.processing ++ [x]
        jobs := updateJob s.jobs x markProcessing
        timers := x :: s.timers
        pending := x :: s.pending } := by
  induction q with
  | nil => cases h
  | cons id rest ih =>
    cases hf : findJob s.jobs id with
    | some j =>
      rw [firstLive] at h
      simp only [hf, Option.isSome_some, if_true, Option.some.injEq] at h
      subst h
      exact ⟨[], rest, rfl, by simp, by simp [hf], by simp [dequeueAdmit, hf]⟩
    | none =>
      rw [firstLive] at h
      simp only [hf, Option.isSome_none, Bool.false_eq_true, if_false] at h
      obtain ⟨q1, q2, hq, hdead, hlive, heq⟩ := ih h
      refine ⟨id :: q1, q2, by rw [List.cons_append, hq], ?_, hlive,
        by simpa [dequeueAdmit, hf] using heq⟩
      intro y hy
      rcases List.mem_cons.mp hy with rfl | hy
      · exact hf
      · exact hdead y hy

theorem processNextJob_cases (s : State) :
    processNextJob s = s ∨
    (processNextJob s = { s with queue := [] } ∧ ∀ y ∈ s.queue, findJob s.jobs y = none) ∨
    ∃ x q1 q2, s.processing.length < s.maxConcurrentJobs ∧ s.queue = q1 ++ x :: q2 ∧
      (∀ y ∈ q1, findJob s.jobs y = none) ∧ (findJob s.jobs x).isSome ∧
      processNextJob s = { s with
        queue := q2
        processing := s.processing ++ [x]
        jobs := updateJob s.jobs x markProcessing
        timers := x :: s.timers
        pending := x :: s.pending } := by
  by_cases hcap : s.maxConcurrentJobs ≤ s.processing.length
  · exact Or.inl (by simp [processNextJob, hcap])
  · have hpn : processNextJob s = dequeueAdmit s s.queue := by simp [processNextJob, hcap]
    cases hf : firstLive s.jobs s.queue with
    | none =>
      obtain ⟨h1, h2⟩ := dequeueAdmit_of_firstLive_none s s.queue hf
      exact Or.inr (Or.inl ⟨hpn.trans h1, h2⟩)
    | some x =>
      obtain ⟨q1, q2, hq, hdead, hlive, heq⟩ := dequeueAdmit_of_firstLive_some s s.queue x hf
      exact Or.inr (Or.inr ⟨x, q1, q2, Nat.lt_of_not_le hcap, hq, hdead, hlive,
        hpn.trans heq⟩)

/-! ### Reachability invariant -/

/-- Invariant maintained by every reachable state of a service built with
concurrency bound `c`:  the queue has no duplicates and refers only to
already-allocated ids, queued ids have no armed watchdog or outstanding
engine call, queued records are pristine (`queued`, progress 0, no error),
progress is always within `[0, 100]`, the `error` field is only ever held
by `failed` or (stale, after the timeout/late-success race) `completed`
records, the configured bound is constant, and the processing set never
exceeds it. -/
structure Inv (c : Nat) (s : State) : Prop where
  queueNodup : s.queue.Nodup
  freshQ : ∀ id ∈ s.queue, id < s.nextId
  freshT : ∀ id ∈ s.timers, id < s.nextId
  freshP : ∀ id ∈ s.pending, id < s.nextId
  freshJ : ∀ id j, findJob s.jobs id = some j → id < s.nextId
  disjT : ∀ id ∈ s.queue, id ∉ s.timers
  disjP : ∀ id ∈ s.queue, id ∉ s.pending
  queued0 : ∀ id ∈ s.queue, ∀ j, findJob s.jobs id = some j →
      j.status = .queued ∧ j.progress = 0 ∧ j.error = none
  bounds : ∀ id j, findJob s.jobs id = some j → 0 ≤ j.progress ∧ j.progress ≤ 100
  errStatus : ∀ id j, findJob s.jobs id = some j →
      (j.status = .failed → j.error ≠ none) ∧
      (j.error ≠ none → j.status = .failed ∨ j.status = .completed)
  mcj : s.maxConcurrentJobs = c
  cap : s.processing.length ≤ c

/-- Record updates keep registry keys, so a bound on live keys survives. -/
theorem freshJ_updateJob (m : JobMap) (id0 : Nat) (f : ConversionJob → ConversionJob) (N : Nat)
    (h : ∀ id j, findJob m id = some j → id < N) :
    ∀ id j, findJob (updateJob m id0 f) id = some j → id < N := by
  intro id j hj
  by_cases he : id = id0
  · subst he
    rw [findJob_updateJob_self] at hj
    cases hfind : findJob m id with
    | none => rw [hfind] at hj; cases hj
    | some j0 => exact h id j0 hfind
  · rw [findJob_updateJob_ne _ _ _ _ he] at hj
    exact h id j hj

theorem inv_initState (c : Nat) : Inv c (initState c) := by
  refine ⟨?_, ?_, ?_, ?_, ?_, ?_, ?_, ?_, ?_, ?_, rfl, ?_⟩ <;> simp [initState, findJob]

theorem inv_clock (c : Nat) (s : State) (n : Nat) (h : Inv c s) :
    Inv c { s with clock := n } :=
  ⟨h.queueNodup, h.freshQ, h.freshT, h.freshP, h.freshJ, h.disjT, h.disjP, h.queued0, h.bounds,
   h.errStatus, h.mcj, h.cap⟩

theorem inv_processNextJob (c : Nat) (s : State) (h : Inv c s) : Inv c (processNextJob s) := by
  rcases processNextJob_cases s with heq | ⟨heq, _⟩ |
    ⟨x, q1, q2, hcap, hq, _, hlive, heq⟩
  · rwa [heq]
  · rw [heq]
    exact ⟨List.nodup_nil, by simp, h.freshT, h.freshP, h.freshJ, by simp, by simp, by simp,
      h.bounds, h.errStatus, h.mcj, h.cap⟩
  · rw [heq]
    obtain ⟨jx, hjx⟩ := Option.isSome_iff_exists.mp hlive
    have hxq : x ∈ s.queue := by rw [hq]; exact List.mem_append_right q1 (List.mem_cons_self x q2)
    have hq2sub : ∀ y ∈ q2, y ∈ s.queue := by
      intro y hy
      rw [hq]
      exact List.mem_append_right q1 (List.mem_cons_of_mem x hy)
    have hnodup2 : (x :: q2).Nodup :=
      (h.queueNodup.sublist (by rw [hq]; exact List.sublist_append_right q1 (x :: q2)))
    have hxq2 : x ∉ q2 := (List.nodup_cons.mp hnodup2).1
    refine ⟨(List.nodup_cons.mp hnodup2).2, ?_, ?_, ?_, ?_, ?_, ?_, ?_, ?_, ?_, h.mcj, ?_⟩
    · exact fun id hid => h.freshQ id (hq2sub id hid)
    · intro id hid
      rcases List.mem_cons.mp hid with rfl | hid
      · exact h.freshQ id hxq
      · exact h.freshT id hid
    · intro id hid
      rcases List.mem_cons.mp hid with rfl | hid
      · exact h.freshQ id hxq
      · exact h.freshP id hid
    · exact freshJ_updateJob s.jobs x markProcessing s.nextId h.freshJ
    · intro id hid
      intro hmem
      rcases List.mem_cons.mp hmem with rfl | hmem
      · exact hxq2 hid
      · exact h.disjT id (hq2sub id hid) hmem
    · intro id hid
      intro hmem
      rcases List.mem_cons.mp hmem with rfl | hmem
      · exact hxq2 hid
      · exact h.disjP id (hq2sub id hid) hmem
    · intro id hid j hj
      have hne : id ≠ x := fun he => hxq2 (he ▸ hid)
      rw [findJob_updateJob_ne s.jobs x id markProcessing hne] at hj
      exact h.queued0 id (hq2sub id hid) j hj
    · intro id j hj
      by_cases hne : id = x
      · subst hne
        rw [findJob_updateJob_self, hjx] at hj
        cases hj
        constructor <;> simp [markProcessing]
      · rw [findJob_updateJob_ne s.jobs x id markProcessing hne] at hj
        exact h.bounds id j hj
    · intro id j hj
      by_cases hne : id = x
      · subst hne
        rw [findJob_updateJob_self, hjx] at hj
        cases hj
        have herr : jx.error = none := (h.queued0 id hxq jx hjx).2.2
        constructor
        · intro hst; cases hst
        · intro hne'
          exact absurd herr (by simpa [markProcessing] using hne')
      · rw [findJob_updateJob_ne s.jobs x id markProcessing hne] at hj
        exact h.errStatus id j hj
    · simpa using Nat.succ_le_of_lt (h.mcj ▸ hcap)

theorem updateProgress_status (j : ConversionJob) (pc : Int) :
    (updateProgress j pc).status = j.status := by
  unfold updateProgress; split <;> rfl

theorem updateProgress_error (j : ConversionJob) (pc : Int) :
    (updateProgress j pc).error = j.error := by
  unfold updateProgress; split <;> rfl

theorem updateProgress_bounds (j : ConversionJob) (pc : Int)
    (h0 : 0 ≤ j.progress) (h100 : j.progress ≤ 100) :
    0 ≤ (updateProgress j pc).progress ∧ (updateProgress j pc).progress ≤ 100 := by
  unfold updateProgress
  split
  · exact ⟨le_min (by norm_num) (le_of_lt (lt_of_le_of_lt h0 (by assumption))),
      min_le_left _ _⟩
  · exact ⟨h0, h100⟩

theorem updateProgress_mono (j : ConversionJob) (pc : Int) (h100 : j.progress ≤ 100) :
    j.progress ≤ (updateProgress j pc).progress := by
  unfold updateProgress
  split
  · exact le_min h100 (le_of_lt (by assumption))
  · exact le_refl _

theorem inv_finallyBlock (c : Nat) (s : State) (id : Nat) (h : Inv c s) :
    Inv c (finallyBlock s id) := by
  apply inv_processNextJob
  exact ⟨h.queueNodup, h.freshQ, h.freshT, h.freshP, h.freshJ, h.disjT, h.disjP, h.queued0,
    h.bounds, h.errStatus, h.mcj,
    le_trans (List.Sublist.length_le (List.erase_sublist id s.processing)) h.cap⟩

theorem inv_queueJobFn (c : Nat) (s : State) (i o n : String) (h : Inv c s) :
    Inv c (queueJobFn s i o n).1 := by
  show Inv c (processNextJob _)
  apply inv_processNextJob
  have hnm : s.nextId ∉ s.queue := fun hm => absurd (h.freshQ _ hm) (lt_irrefl _)
  have hnt : s.nextId ∉ s.timers := fun hm => absurd (h.freshT _ hm) (lt_irrefl _)
  have hnp : s.nextId ∉ s.pending := fun hm => absurd (h.freshP _ hm) (lt_irrefl _)
  refine ⟨?_, ?_, ?_, ?_, ?_, ?_, ?_, ?_, ?_, ?_, h.mcj, h.cap⟩
  · rw [List.nodup_append]
    refine ⟨h.queueNodup, List.nodup_singleton _, ?_⟩
    intro a ha hb
    rcases List.mem_singleton.mp hb with rfl
    exact hnm ha
  · intro id hid
    rcases List.mem_append.mp hid with hid | hid
    · exact Nat.lt_succ_of_lt (h.freshQ id hid)
    · rcases List.mem_singleton.mp hid with rfl
      exact Nat.lt_succ_self _
  · exact fun id hid => Nat.lt_succ_of_lt (h.freshT id hid)
  · exact fun id hid => Nat.lt_succ_of_lt (h.freshP id hid)
  · intro id j hj
    simp only [findJob] at hj
    by_cases he : s.nextId = id
    · subst he
      exact Nat.lt_succ_self _
    · rw [if_neg he] at hj
      exact Nat.lt_succ_of_lt (h.freshJ id j hj)
  · intro id hid
    rcases List.mem_append.mp hid with hid | hid
    · exact h.disjT id hid
    · rcases List.mem_singleton.mp hid with rfl
      exact hnt
  · intro id hid
    rcases List.mem_append.mp hid with hid | hid
    · exact h.disjP id hid
    · rcases List.mem_singleton.mp hid with rfl
      exact hnp
  · intro id hid j hj
    simp only [findJob] at hj
    by_cases he : s.nextId = id
    · rw [if_pos he] at hj
      cases hj
      exact ⟨rfl, rfl, rfl⟩
    · rw [if_neg he] at hj
      rcases List.mem_append.mp hid with hid | hid
      · exact h.queued0 id hid j hj
      · rcases List.mem_singleton.mp hid with rfl
        exact absurd rfl he
  · intro id j hj
    simp only [findJob] at hj
    by_cases he : s.nextId = id
    · rw [if_pos he] at hj
      cases hj
      exact ⟨le_refl 0, by norm_num⟩
    · rw [if_neg he] at hj
      exact h.bounds id j hj
  · intro id j hj
    simp only [findJob] at hj
    by_cases he : s.nextId = id
    · rw [if_pos he] at hj
      cases hj
      refine ⟨(fun hst => nomatch hst), fun hne => absurd rfl hne⟩
    · rw [if_neg he] at hj
      exact h.errStatus id j hj

theorem inv_cancelJobFn (c : Nat) (s : State) (id : Nat) (h : Inv c s) :
    Inv c (cancelJobFn s id).1 := by
  cases hj : findJob s.jobs id with
  | none => simpa [cancelJobFn, hj] using h
  | some job =>
    by_cases hc : job.status ≠ .queued ∧ job.status ≠ .processing
    · simpa [cancelJobFn, hj, hc] using h
    · have herr : job.error = none := by
        by_contra hne
        rcases (h.errStatus id job hj).2 hne with hf | hf
        · exact hc ⟨(by rw [hf]; exact fun hx => nomatch hx), (by rw [hf]; exact fun hx => nomatch hx)⟩
        · exact hc ⟨(by rw [hf]; exact fun hx => nomatch hx), (by rw [hf]; exact fun hx => nomatch hx)⟩
      by_cases hq : job.status = .queued
      · have hnp : ¬ job.status = .processing := by rw [hq]; exact fun hx => nomatch hx
        have hstate : (cancelJobFn s id).1 = { s with
            queue := s.queue.erase id
            jobs := updateJob s.jobs id
              (fun j => { j with status := .cancelled, completedAt := some s.clock })
            cleanupCalls := s.cleanupCalls ++ [id] } := by
          simp [cancelJobFn, hj, hc, hq, hnp]
        rw [hstate]
        refine ⟨h.queueNodup.erase id, ?_, h.freshT, h.freshP,
          freshJ_updateJob s.jobs id _ s.nextId h.freshJ, ?_, ?_, ?_, ?_, ?_,
          h.mcj, h.cap⟩
        · exact fun y hy => h.freshQ y (List.mem_of_mem_erase hy)
        · exact fun y hy => h.disjT y (List.mem_of_mem_erase hy)
        · exact fun y hy => h.disjP y (List.mem_of_mem_erase hy)
        · intro y hy j hjy
          have hne : y ≠ id := by
            intro he
            exact h.queueNodup.not_mem_erase (he ▸ hy)
          rw [findJob_updateJob_ne _ _ _ _ hne] at hjy
          exact h.queued0 y (List.mem_of_mem_erase hy) j hjy
        · intro y j hjy
          by_cases he : y = id
          · subst he
            rw [findJob_updateJob_self, hj] at hjy
            cases hjy
            exact h.bounds y job hj
          · rw [findJob_updateJob_ne _ _ _ _ he] at hjy
            exact h.bounds y j hjy
        · intro y j hjy
          by_cases he : y = id
          · subst he
            rw [findJob_updateJob_self, hj] at hjy
            cases hjy
            refine ⟨(fun hst => nomatch hst), fun hne => absurd herr ?_⟩
            simpa using hne
          · rw [findJob_updateJob_ne _ _ _ _ he] at hjy
            exact h.errStatus y j hjy
      · have hp : job.status = .processing := by
          rcases not_and_or.mp hc with h1 | h2
          · exact absurd (not_not.mp h1) hq
          · exact not_not.mp h2
        have hstate : (cancelJobFn s id).1 = { s with
            processing := s.processing.erase id
            deleteCalls := s.deleteCalls ++ [id]
            jobs := updateJob s.jobs id
              (fun j => { j with status := .cancelled, completedAt := some s.clock })
            cleanupCalls := s.cleanupCalls ++ [id] } := by
          simp [cancelJobFn, hj, hc, hq, hp]
        rw [hstate]
        refine ⟨h.queueNodup, h.freshQ, h.freshT, h.freshP,
          freshJ_updateJob s.jobs id _ s.nextId h.freshJ, h.disjT, h.disjP, ?_, ?_, ?_,
          h.mcj, le_trans (List.Sublist.length_le (List.erase_sublist id s.processing)) h.cap⟩
        · intro y hy j hjy
          have hne : y ≠ id := by
            intro he
            subst he
            exact absurd (h.queued0 y hy job hj).1 (hp ▸ fun hx => nomatch hx)
          rw [findJob_updateJob_ne _ _ _ _ hne] at hjy
          exact h.queued0 y hy j hjy
        · intro y j hjy
          by_cases he : y = id
          · subst he
            rw [findJob_updateJob_self, hj] at hjy
            cases hjy
            exact h.bounds y job hj
          · rw [findJob_updateJob_ne _ _ _ _ he] at hjy
            exact h.bounds y j hjy
        · intro y j hjy
          by_cases he : y = id
          · subst he
            rw [findJob_updateJob_self, hj] at hjy
            cases hjy
            refine ⟨(fun hst => nomatch hst), fun hne => absurd herr ?_⟩
            simpa using hne
          · rw [findJob_updateJob_ne _ _ _ _ he] at hjy
            exact h.errStatus y j hjy

theorem inv_timeoutFireFn (c : Nat) (s : State) (id : Nat) (h : Inv c s) :
    Inv c (timeoutFireFn s id) := by
  by_cases ht : id ∈ s.timers
  · have hnq : id ∉ s.queue := fun hqm => h.disjT id hqm ht
    have hstate : timeoutFireFn s id = processNextJob { s with
        timers := s.timers.erase id
        jobs := updateJob s.jobs id
          (fun j => { j with
            status := .failed
            error := some "Conversion timeout exceeded"
            completedAt := some s.clock })
        processing := s.processing.erase id
        deleteCalls := s.deleteCalls ++ [id]
        admitCalls := s.admitCalls ++ [id] } := by
      simp [timeoutFireFn, ht]
    rw [hstate]
    apply inv_processNextJob
    refine ⟨h.queueNodup, h.freshQ, ?_, h.freshP,
      freshJ_updateJob s.jobs id _ s.nextId h.freshJ, ?_, h.disjP, ?_, ?_, ?_, h.mcj,
      le_trans (List.Sublist.length_le (List.erase_sublist id s.processing)) h.cap⟩
    · exact fun y hy => h.freshT y (List.mem_of_mem_erase hy)
    · exact fun y hy hm => h.disjT y hy (List.mem_of_mem_erase hm)
    · intro y hy j hjy
      have hne : y ≠ id := fun he => hnq (he ▸ hy)
      rw [findJob_updateJob_ne _ _ _ _ hne] at hjy
      exact h.queued0 y hy j hjy
    · intro y j hjy
      by_cases he : y = id
      · subst he
        rw [findJob_updateJob_self] at hjy
        cases hfind : findJob s.jobs y with
        | none => rw [hfind] at hjy; cases hjy
        | some j0 =>
          rw [hfind] at hjy
          cases hjy
          exact h.bounds y j0 hfind
      · rw [findJob_updateJob_ne _ _ _ _ he] at hjy
        exact h.bounds y j hjy
    · intro y j hjy
      by_cases he : y = id
      · subst he
        rw [findJob_updateJob_self] at hjy
        cases hfind : findJob s.jobs y with
        | none => rw [hfind] at hjy; cases hjy
        | some j0 =>
          rw [hfind] at hjy
          cases hjy
          exact ⟨(fun _ => by simp), fun _ => Or.inl rfl⟩
      · rw [findJob_updateJob_ne _ _ _ _ he] at hjy
        exact h.errStatus y j hjy
  · simpa [timeoutFireFn, ht] using h

theorem inv_engineSuccessFn (c : Nat) (s : State) (id : Nat) (meta : AudioMetadata)
    (h : Inv c s) : Inv c (engineSuccessFn s id meta) := by
  by_cases hp : id ∈ s.pending
  · have hnq : id ∉ s.queue := fun hqm => h.disjP id hqm hp
    have h1 : Inv c { s with pending := s.pending.erase id } :=
      ⟨h.queueNodup, h.freshQ, h.freshT, fun y hy => h.freshP y (List.mem_of_mem_erase hy),
       h.freshJ, h.disjT, fun y hy hm => h.disjP y hy (List.mem_of_mem_erase hm), h.queued0,
       h.bounds, h.errStatus, h.mcj, h.cap⟩
    unfold engineSuccessFn
    rw [if_pos hp]
    dsimp only
    cases hj : findJob s.jobs id with
    | none => exact inv_finallyBlock c _ id h1
    | some job =>
      dsimp only
      by_cases hc : job.status = .cancelled
      · rw [if_pos hc]
        apply inv_finallyBlock
        exact ⟨h1.queueNodup, h1.freshQ, fun y hy => h1.freshT y (List.mem_of_mem_erase hy),
          h1.freshP, h1.freshJ, fun y hy hm => h1.disjT y hy (List.mem_of_mem_erase hm),
          h1.disjP, h1.queued0, h1.bounds, h1.errStatus, h1.mcj, h1.cap⟩
      · rw [if_neg hc]
        apply inv_finallyBlock
        refine ⟨h1.queueNodup, h1.freshQ, fun y hy => h1.freshT y (List.mem_of_mem_erase hy),
          h1.freshP, freshJ_updateJob s.jobs id _ s.nextId h1.freshJ,
          fun y hy hm => h1.disjT y hy (List.mem_of_mem_erase hm), h1.disjP,
          ?_, ?_, ?_, h1.mcj, h1.cap⟩
        · intro y hy j hjy
          have hne : y ≠ id := fun he => hnq (he ▸ hy)
          rw [findJob_updateJob_ne _ _ _ _ hne] at hjy
          exact h1.queued0 y hy j hjy
        · intro y j hjy
          by_cases he : y = id
          · subst he
            rw [findJob_updateJob_self, hj] at hjy
            cases hjy
            exact ⟨by norm_num, by norm_num⟩
          · rw [findJob_updateJob_ne _ _ _ _ he] at hjy
            exact h1.bounds y j hjy
        · intro y j hjy
          by_cases he : y = id
          · subst he
            rw [findJob_updateJob_self, hj] at hjy
            cases hjy
            exact ⟨(fun hst => nomatch hst), fun _ => Or.inr rfl⟩
          · rw [findJob_updateJob_ne _ _ _ _ he] at hjy
            exact h1.errStatus y j hjy
  · simpa [engineSuccessFn, hp] using h

theorem inv_engineFailureFn (c : Nat) (s : State) (id : Nat) (emsg : Option String)
    (h : Inv c s) : Inv c (engineFailureFn s id emsg) := by
  by_cases hp : id ∈ s.pending
  · have hnq : id ∉ s.queue := fun hqm => h.disjP id hqm hp
    unfold engineFailureFn
    rw [if_pos hp]
    apply inv_finallyBlock
    refine ⟨h.queueNodup, h.freshQ, fun y hy => h.freshT y (List.mem_of_mem_erase hy),
      fun y hy => h.freshP y (List.mem_of_mem_erase hy),
      freshJ_updateJob s.jobs id _ s.nextId h.freshJ,
      fun y hy hm => h.disjT y hy (List.mem_of_mem_erase hm),
      fun y hy hm => h.disjP y hy (List.mem_of_mem_erase hm), ?_, ?_, ?_, h.mcj, h.cap⟩
    · intro y hy j hjy
      have hne : y ≠ id := fun he => hnq (he ▸ hy)
      rw [findJob_updateJob_ne _ _ _ _ hne] at hjy
      exact h.queued0 y hy j hjy
    · intro y j hjy
      by_cases he : y = id
      · subst he
        rw [findJob_updateJob_self] at hjy
        cases hfind : findJob s.jobs y with
        | none => rw [hfind] at hjy; cases hjy
        | some j0 =>
          rw [hfind] at hjy
          cases hjy
          exact h.bounds y j0 hfind
      · rw [findJob_updateJob_ne _ _ _ _ he] at hjy
        exact h.bounds y j hjy
    · intro y j hjy
      by_cases he : y = id
      · subst he
        rw [findJob_updateJob_self] at hjy
        cases hfind : findJob s.jobs y with
        | none => rw [hfind] at hjy; cases hjy
        | some j0 =>
          rw [hfind] at hjy
          cases hjy
          exact ⟨(fun _ => by simp), fun _ => Or.inl rfl⟩
      · rw [findJob_updateJob_ne _ _ _ _ he] at hjy
        exact h.errStatus y j hjy
  · simpa [engineFailureFn, hp] using h

theorem inv_progressCbFn (c : Nat) (s : State) (id : Nat) (pc : Int) (h : Inv c s) :
    Inv c (progressCbFn s id pc) := by
  by_cases hp : id ∈ s.pending
  · have hnq : id ∉ s.queue := fun hqm => h.disjP id hqm hp
    unfold progressCbFn
    rw [if_pos hp]
    refine ⟨h.queueNodup, h.freshQ, h.freshT, h.freshP,
      freshJ_updateJob s.jobs id _ s.nextId h.freshJ, h.disjT, h.disjP, ?_, ?_, ?_,
      h.mcj, h.cap⟩
    · intro y hy j hjy
      have hne : y ≠ id := fun he => hnq (he ▸ hy)
      rw [findJob_updateJob_ne _ _ _ _ hne] at hjy
      exact h.queued0 y hy j hjy
    · intro y j hjy
      by_cases he : y = id
      · subst he
        rw [findJob_updateJob_self] at hjy
        cases hfind : findJob s.jobs y with
        | none => rw [hfind] at hjy; cases hjy
        | some j0 =>
          rw [hfind] at hjy
          cases hjy
          exact updateProgress_bounds j0 pc (h.bounds y j0 hfind).1 (h.bounds y j0 hfind).2
      · rw [findJob_updateJob_ne _ _ _ _ he] at hjy
        exact h.bounds y j hjy
    · intro y j hjy
      by_cases he : y = id
      · subst he
        rw [findJob_updateJob_self] at hjy
        cases hfind : findJob s.jobs y with
        | none => rw [hfind] at hjy; cases hjy
        | some j0 =>
          rw [hfind] at hjy
          cases hjy
          rw [updateProgress_status j0 pc, updateProgress_error j0 pc]
          exact h.errStatus y j0 hfind
      · rw [findJob_updateJob_ne _ _ _ _ he] at hjy
        exact h.errStatus y j hjy
  · simpa [progressCbFn, hp] using h

theorem inv_step (c : Nat) (s : State) (e : Event) (h : Inv c s) : Inv c (step s e) := by
  cases e with
  | submit i o n => exact inv_queueJobFn c _ i o n (inv_clock c s _ h)
  | cancel id => exact inv_cancelJobFn c _ id (inv_clock c s _ h)
  | timeout id => exact inv_timeoutFireFn c _ id (inv_clock c s _ h)
  | engineSuccess id m => exact inv_engineSuccessFn c _ id m (inv_clock c s _ h)
  | engineFailure id e => exact inv_engineFailureFn c _ id e (inv_clock c s _ h)
  | progress id p => exact inv_progressCbFn c _ id p (inv_clock c s _ h)

theorem inv_runFrom (c : Nat) (s : State) (es : List Event) (h : Inv c s) :
    Inv c (runFrom s es) := by
  induction es generalizing s with
  | nil => exact h
  | cons e tl ih => exact ih (step s e) (inv_step c s e h)

theorem inv_run (c : Nat) (es : List Event) : Inv c (run c es) :=
  inv_runFrom c (initState c) es (inv_initState c)

/-! ### Progress is never decreased by any event -/

theorem find_processNextJob_mono (s : State) (id : Nat) (j : ConversionJob)
    (hj : findJob s.jobs id = some j) (hq0 : id ∈ s.queue → j.progress = 0) :
    ∃ j', findJob (processNextJob s).jobs id = some j' ∧ j.progress ≤ j'.progress := by
  rcases processNextJob_cases s with heq | ⟨heq, _⟩ | ⟨x, q1, q2, _, hq, _, _, heq⟩
  · rw [heq]; exact ⟨j, hj, le_refl _⟩
  · rw [heq]; exact ⟨j, hj, le_refl _⟩
  · rw [heq]
    by_cases he : id = x
    · subst he
      have hxq : id ∈ s.queue := by
        rw [hq]; exact List.mem_append_right q1 (List.mem_cons_self _ _)
      refine ⟨markProcessing j, ?_, ?_⟩
      · rw [findJob_updateJob_self, hj]; rfl
      · simp [markProcessing, hq0 hxq]
    · rw [findJob_updateJob_ne _ _ _ _ he]
      exact ⟨j, hj, le_refl _⟩

theorem find_finallyBlock_mono (s : State) (id0 id : Nat) (j : ConversionJob)
    (hj : findJob s.jobs id = some j) (hq0 : id ∈ s.queue → j.progress = 0) :
    ∃ j', findJob (finallyBlock s id0).jobs id = some j' ∧ j.progress ≤ j'.progress := by
  unfold finallyBlock
  exact find_processNextJob_mono _ id j hj hq0

theorem find_finallyBlock_mono_le (s : State) (id0 id : Nat) (j : ConversionJob) (p : Int)
    (hj : findJob s.jobs id = some j) (hq0 : id ∈ s.queue → j.progress = 0)
    (hple : p ≤ j.progress) :
    ∃ j', findJob (finallyBlock s id0).jobs id = some j' ∧ p ≤ j'.progress := by
  obtain ⟨j', hj', hle⟩ := find_finallyBlock_mono s id0 id j hj hq0
  exact ⟨j', hj', le_trans hple hle⟩

theorem find_queueJobFn_mono (c : Nat) (s : State) (i o n : String) (id : Nat)
    (j : ConversionJob) (h : Inv c s) (hj : findJob s.jobs id = some j) :
    ∃ j', findJob (queueJobFn s i o n).1.jobs id = some j' ∧ j.progress ≤ j'.progress := by
  have hne : s.nextId ≠ id :=
    fun he => absurd (h.freshJ id j hj) (by rw [he]; exact lt_irrefl id)
  unfold queueJobFn
  dsimp only
  apply find_processNextJob_mono
  · simp only [findJob]
    rw [if_neg hne]
    exact hj
  · intro hm
    rcases List.mem_append.mp hm with hm | hm
    · exact (h.queued0 id hm j hj).2.1
    · exact absurd (List.mem_singleton.mp hm) fun hh => hne hh.symm

theorem find_cancelJobFn_progress (s : State) (id0 id : Nat) (j : ConversionJob)
    (hj : findJob s.jobs id = some j) :
    ∃ j', findJob (cancelJobFn s id0).1.jobs id = some j' ∧ j'.progress = j.progress := by
  cases hj0 : findJob s.jobs id0 with
  | none =>
    refine ⟨j, ?_, rfl⟩
    simpa [cancelJobFn, hj0] using hj
  | some job =>
    by_cases hc : job.status ≠ .queued ∧ job.status ≠ .processing
    · refine ⟨j, ?_, rfl⟩
      simpa [cancelJobFn, hj0, hc] using hj
    · by_cases hq : job.status = .queued
      · have hnp : ¬ job.status = .processing := by rw [hq]; exact fun hx => nomatch hx
        have hstate : (cancelJobFn s id0).1 = { s with
            queue := s.queue.erase id0
            jobs := updateJob s.jobs id0
              (fun j => { j with status := .cancelled, completedAt := some s.clock })
            cleanupCalls := s.cleanupCalls ++ [id0] } := by
          simp [cancelJobFn, hj0, hc, hq, hnp]
        rw [hstate]
        by_cases he : id = id0
        · subst he
          refine ⟨{ j with status := .cancelled, completedAt := some s.clock },
            by rw [findJob_updateJob_self, hj]; rfl, rfl⟩
        · rw [findJob_updateJob_ne _ _ _ _ he]
          exact ⟨j, hj, rfl⟩
      · have hp : job.status = .processing := by
          rcases not_and_or.mp hc with h1 | h2
          · exact absurd (not_not.mp h1) hq
          · exact not_not.mp h2
        have hstate : (cancelJobFn s id0).1 = { s with
            processing := s.processing.erase id0
            deleteCalls := s.deleteCalls ++ [id0]
            jobs := updateJob s.jobs id0
              (fun j => { j with status := .cancelled, completedAt := some s.clock })
            cleanupCalls := s.cleanupCalls ++ [id0] } := by
          simp [cancelJobFn, hj0, hc, hq, hp]
        rw [hstate]
        by_cases he : id = id0
        · subst he
          refine ⟨{ j with status := .cancelled, completedAt := some s.clock },
            by rw [findJob_updateJob_self, hj]; rfl, rfl⟩
        · rw [findJob_updateJob_ne _ _ _ _ he]
          exact ⟨j, hj, rfl⟩

theorem find_timeoutFireFn_mono (c : Nat) (s : State) (id0 id : Nat) (j : ConversionJob)
    (h : Inv c s) (hj : findJob s.jobs id = some j) :
    ∃ j', findJob (timeoutFireFn s id0).jobs id = some j' ∧ j.progress ≤ j'.progress := by
  by_cases ht : id0 ∈ s.timers
  · have hnq : id0 ∉ s.queue := fun hm => h.disjT id0 hm ht
    have hstate : timeoutFireFn s id0 = processNextJob { s with
        timers := s.timers.erase id0
        jobs := updateJob s.jobs id0
          (fun j => { j with
            status := .failed
            error := some "Conversion timeout exceeded"
            completedAt := some s.clock })
        processing := s.processing.erase id0
        deleteCalls := s.deleteCalls ++ [id0]
        admitCalls := s.admitCalls ++ [id0] } := by
      simp [timeoutFireFn, ht]
    rw [hstate]
    by_cases he : id = id0
    · subst he
      exact find_processNextJob_mono _ id
        { j with
          status := .failed, error := some "Conversion timeout exceeded"
          completedAt := some s.clock }
        (by rw [findJob_updateJob_self, hj]; rfl) (fun hm => absurd hm hnq)
    · exact find_processNextJob_mono _ id j
        (by rw [findJob_updateJob_ne _ _ _ _ he]; exact hj)
        (fun hm => (h.queued0 id hm j hj).2.1)
  · refine ⟨j, ?_, le_refl _⟩
    simpa [timeoutFireFn, ht] using hj

theorem find_engineSuccessFn_mono (c : Nat) (s : State) (id0 : Nat) (meta : AudioMetadata)
    (id : Nat) (j : ConversionJob) (h : Inv c s) (hj : findJob s.jobs id = some j) :
    ∃ j', findJob (engineSuccessFn s id0 meta).jobs id = some j' ∧
      j.progress ≤ j'.progress := by
  by_cases hp : id0 ∈ s.pending
  · have hnq : id0 ∉ s.queue := fun hm => h.disjP id0 hm hp
    unfold engineSuccessFn
    rw [if_pos hp]
    dsimp only
    cases hj0 : findJob s.jobs id0 with
    | none =>
      exact find_finallyBlock_mono _ id0 id j hj (fun hm => (h.queued0 id hm j hj).2.1)
    | some job =>
      dsimp only
      by_cases hc : job.status = .cancelled
      · rw [if_pos hc]
        exact find_finallyBlock_mono _ id0 id j hj (fun hm => (h.queued0 id hm j hj).2.1)
      · rw [if_neg hc]
        by_cases he : id = id0
        · subst he
          have hjj : job = j := by rw [hj0] at hj; cases hj; rfl
          subst hjj
          refine find_finallyBlock_mono_le _ id id
            { job with
              status := .completed, progress := 100
              metadata := some meta, completedAt := some s.clock }
            job.progress
            (by rw [findJob_updateJob_self, hj0]; rfl) (fun hm => absurd hm hnq)
            (h.bounds id job hj0).2
        · exact find_finallyBlock_mono _ id0 id j
            (by rw [findJob_updateJob_ne _ _ _ _ he]; exact hj)
            (fun hm => (h.queued0 id hm j hj).2.1)
  · refine ⟨j, ?_, le_refl _⟩
    simpa [engineSuccessFn, hp] using hj

theorem find_engineFailureFn_mono (c : Nat) (s : State) (id0 : Nat) (emsg : Option String)
    (id : Nat) (j : ConversionJob) (h : Inv c s) (hj : findJob s.jobs id = some j) :
    ∃ j', findJob (engineFailureFn s id0 emsg).jobs id = some j' ∧
      j.progress ≤ j'.progress := by
  by_cases hp : id0 ∈ s.pending
  · have hnq : id0 ∉ s.queue := fun hm => h.disjP id0 hm hp
    unfold engineFailureFn
    rw [if_pos hp]
    dsimp only
    by_cases he : id = id0
    · subst he
      cases hfind : findJob s.jobs id with
      | none => rw [hfind] at hj; cases hj
      | some j0 =>
        rw [hfind] at hj
        cases hj
        exact find_finallyBlock_mono _ id id
          { j with
            status := .failed, error := some (errMessage emsg)
            completedAt := some s.clock }
          (by rw [findJob_updateJob_self, hfind]; rfl) (fun hm => absurd hm hnq)
    · exact find_finallyBlock_mono _ id0 id j
        (by rw [findJob_updateJob_ne _ _ _ _ he]; exact hj)
        (fun hm => (h.queued0 id hm j hj).2.1)
  · refine ⟨j, ?_, le_refl _⟩
    simpa [engineFailureFn, hp] using hj

theorem find_progressCbFn_mono (c : Nat) (s : State) (id0 : Nat) (pc : Int) (id : Nat)
    (j : ConversionJob) (h : Inv c s) (hj : findJob s.jobs id = some j) :
    ∃ j', findJob (progressCbFn s id0 pc).jobs id = some j' ∧ j.progress ≤ j'.progress := by
  by_cases hp : id0 ∈ s.pending
  · unfold progressCbFn
    rw [if_pos hp]
    by_cases he : id = id0
    · subst he
      refine ⟨updateProgress j pc, ?_, updateProgress_mono j pc (h.bounds id j hj).2⟩
      rw [findJob_updateJob_self, hj]
      rfl
    · rw [findJob_updateJob_ne _ _ _ _ he]
      exact ⟨j, hj, le_refl _⟩
  · refine ⟨j, ?_, le_refl _⟩
    simpa [progressCbFn, hp] using hj

theorem find_step_mono (c : Nat) (s : State) (e : Event) (id : Nat) (j : ConversionJob)
    (h : Inv c s) (hj : findJob s.jobs id = some j) :
    ∃ j', findJob (step s e).jobs id = some j' ∧ j.progress ≤ j'.progress := by
  cases e with
  | submit i o n => exact find_queueJobFn_mono c _ i o n id j (inv_clock c s _ h) hj
  | cancel id0 =>
    obtain ⟨j', hj', hpe⟩ := find_cancelJobFn_progress { s with clock := s.clock + 1 } id0 id j hj
    exact ⟨j', hj', le_of_eq hpe.symm⟩
  | timeout id0 => exact find_timeoutFireFn_mono c _ id0 id j (inv_clock c s _ h) hj
  | engineSuccess id0 m => exact find_engineSuccessFn_mono c _ id0 m id j (inv_clock c s _ h) hj
  | engineFailure id0 m => exact find_engineFailureFn_mono c _ id0 m id j (inv_clock c s _ h) hj
  | progress id0 pc => exact find_progressCbFn_mono c _ id0 pc id j (inv_clock c s _ h) hj

theorem find_runFrom_mono (c : Nat) (s : State) (es : List Event) (id : Nat)
    (j : ConversionJob) (h : Inv c s) (hj : findJob s.jobs id = some j) :
    ∃ j', findJob (runFrom s es).jobs id = some j' ∧ j.progress ≤ j'.progress := by
  induction es generalizing s j with
  | nil => exact ⟨j, hj, le_refl _⟩
  | cons e tl ih =>
    obtain ⟨j1, hj1, hle1⟩ := find_step_mono c s e id j h hj
    obtain ⟨j2, hj2, hle2⟩ := ih (step s e) j1 (inv_step c s e h) hj1
    exact ⟨j2, hj2, le_trans hle1 hle2⟩

/-- C6: for every configured concurrency bound `c` and every trace of
submissions, cancellations, progress reports, and terminations, the number
of jobs simultaneously in the processing set never exceeds `c`: admission
pops a queued job only when the processing set is below capacity. -/
theorem processing_bounded (c : Nat) (es : List Event) :
    (run c es).processing.length ≤ c :=
  (inv_run c es).cap

/-- C5: the progress visible through `getJobStatus` is non-decreasing
along every trace and always within `[0, 100]`; moreover the stored value
changes only when the reported value strictly exceeds it (regressive
callbacks leave the record untouched) and an applied update stores the
report clamped to at most 100. -/
theorem progress_monotone_bounded (c : Nat) (es : List Event) (id : Nat) (i k : Nat)
    (p q : Int) (hik : i ≤ k) (hp : progressAt c es id i = some p)
    (hq : progressAt c es id k = some q) :
    0 ≤ p ∧ p ≤ 100 ∧ p ≤ q ∧
    (∀ j pc, pc ≤ j.progress → updateProgress j pc = j) ∧
    (∀ j pc, j.progress < pc → (updateProgress j pc).progress = min 100 pc) := by
  have hpi : ∃ ji, findJob (run c (es.take i)).jobs id = some ji ∧ ji.progress = p := by
    unfold progressAt getJobStatus at hp
    cases hfi : findJob (run c (es.take i)).jobs id with
    | none => rw [hfi] at hp; simp at hp
    | some ji =>
      rw [hfi] at hp
      simp at hp
      exact ⟨ji, rfl, hp⟩
  have hqk : ∃ jk, findJob (run c (es.take k)).jobs id = some jk ∧ jk.progress = q := by
    unfold progressAt getJobStatus at hq
    cases hfk : findJob (run c (es.take k)).jobs id with
    | none => rw [hfk] at hq; simp at hq
    | some jk =>
      rw [hfk] at hq
      simp at hq
      exact ⟨jk, rfl, hq⟩
  obtain ⟨ji, hfi, hpi⟩ := hpi
  obtain ⟨jk, hfk, hqk⟩ := hqk
  have hb := (inv_run c (es.take i)).bounds id ji hfi
  have hsplit : run c (es.take k) = runFrom (run c (es.take i)) ((es.take k).drop i) := by
    unfold run runFrom
    rw [← List.foldl_append]
    congr 1
    have h1 : (es.take k).take i = es.take i := by
      rw [List.take_take, min_eq_left hik]
    have hcat : es.take i ++ (es.take k).drop i = es.take k := by
      conv_lhs => rw [← h1]
      exact List.take_append_drop i (es.take k)
    exact hcat.symm
  obtain ⟨j', hj', hle⟩ := find_runFrom_mono c (run c (es.take i)) ((es.take k).drop i) id ji
    (inv_run c (es.take i)) hfi
  rw [← hsplit, hfk] at hj'
  cases hj'
  refine ⟨hpi ▸ hb.1, hpi ▸ hb.2, ?_, ?_, ?_⟩
  · rw [← hpi, ← hqk]
    exact hle
  · intro j pc hle'
    unfold updateProgress
    rw [if_neg (not_lt.mpr hle')]
  · intro j pc hlt
    unfold updateProgress
    rw [if_pos hlt]

/-- Witness for `progress_monotone_bounded`: one job receiving a callback
of 30 and then a regressive callback of 20; the visible progress stays 30. -/
theorem progress_monotone_bounded_witness :
    0 ≤ (30 : Int) ∧ (30 : Int) ≤ 100 ∧ (30 : Int) ≤ 30 ∧
    (∀ j pc, pc ≤ j.progress → updateProgress j pc = j) ∧
    (∀ j pc, j.progress < pc → (updateProgress j pc).progress = min 100 pc) :=
  progress_monotone_bounded 1
    [.submit "i" "o" "n", .progress 0 30, .progress 0 20] 0 2 3 30 30
    (by decide) (by decide) (by decide)

/-- C7: among simultaneously queued jobs, the earlier-submitted one is
admitted first: with a free slot, `processNextJob` admits exactly the
first queued id that still has a live registry record, so a job `B` queued
behind a live job `A` is never the one admitted, and ids whose record is
gone are skipped without occupying the slot. -/
theorem fifo_admission (s : State) (l1 l2 l3 : List Nat) (A B : Nat)
    (hq : s.queue = l1 ++ A :: (l2 ++ B :: l3))
    (hA : (findJob s.jobs A).isSome)
    (hcap : s.processing.length < s.maxConcurrentJobs)
    (hB : B ∉ l1 ++ [A]) :
    ∃ x, x ∈ l1 ++ [A] ∧ (findJob s.jobs x).isSome ∧
      (processNextJob s).processing = s.processing ++ [x] ∧
      (B ∈ (processNextJob s).processing → B ∈ s.processing) := by
  have hfl : ∃ x, firstLive s.jobs s.queue = some x ∧ x ∈ l1 ++ [A] := by
    rw [hq]
    clear hq hcap hB
    induction l1 with
    | nil => exact ⟨A, by simp [firstLive, hA], by simp⟩
    | cons y tl ih =>
      cases hf : findJob s.jobs y with
      | some jy => exact ⟨y, by simp [firstLive, hf], by simp⟩
      | none =>
        obtain ⟨x, hx1, hx2⟩ := ih
        refine ⟨x, ?_, ?_⟩
        · rw [List.cons_append, firstLive]
          simp only [hf, Option.isSome_none, Bool.false_eq_true, if_false]
          exact hx1
        · rw [List.cons_append]
          exact List.mem_cons_of_mem y hx2
  obtain ⟨x, hfl, hxmem⟩ := hfl
  obtain ⟨q1, q2, _, _, hlive, heq⟩ := dequeueAdmit_of_firstLive_some s s.queue x hfl
  have hpn : processNextJob s = dequeueAdmit s s.queue := by
    simp [processNextJob, not_le.mpr hcap]
  refine ⟨x, hxmem, hlive, ?_, ?_⟩
  · rw [hpn, heq]
  · intro hBmem
    rw [hpn, heq] at hBmem
    rcases List.mem_append.mp hBmem with hm | hm
    · exact hm
    · rcases List.mem_singleton.mp hm with rfl
      exact absurd hxmem hB

/-- A queued registry record, used to build concrete scheduler states. -/
def queuedRecord (id : Nat) : ConversionJob :=
  ⟨id, "i", "o", "n", .queued, 0, 0, none, none, none⟩

/-- A state whose queue holds a dead id (3) ahead of two live queued jobs
(5 then 7), with a free execution slot. -/
def skewQueueState : State :=
  { jobs := [(5, queuedRecord 5), (7, queuedRecord 7)], queue := [3, 5, 7], processing := []
    maxConcurrentJobs := 1, nextId := 8, clock := 0, timers := [], pending := []
    clearCalls := [], deleteCalls := [], admitCalls := [], cleanupCalls := [] }

/-- Witness for `fifo_admission`: in `skewQueueState` the dead head 3 is
skipped and job 5 — not the later job 7 — takes the free slot. -/
theorem fifo_admission_witness :
    ∃ x, x ∈ [3] ++ [5] ∧ (findJob skewQueueState.jobs x).isSome ∧
      (processNextJob skewQueueState).processing = skewQueueState.processing ++ [x] ∧
      (7 ∈ (processNextJob skewQueueState).processing → 7 ∈ skewQueueState.processing) :=
  fifo_admission skewQueueState [3] [] [] 5 7 (by decide) (by decide) (by decide) (by decide)

/-! ### Error strings written by the code are never empty -/

/-- A trace respects engine error messages when every `Error` thrown by the
engine carries a non-empty message (the `FFmpegWrapper` reject sites all
prefix their messages, so this holds of the real engine). -/
def eventMsgsOk : Event → Bool
  | .engineFailure _ (some m) => m != ""
  | _ => true

/-- Every error string held by a registry record is non-empty. -/
def ErrNE (s : State) : Prop :=
  ∀ id j m, findJob s.jobs id = some j → j.error = some m → m ≠ ""

theorem errNE_updateJob (m : JobMap) (id0 : Nat) (f : ConversionJob → ConversionJob)
    (hP : ∀ id j msg, findJob m id = some j → j.error = some msg → msg ≠ "")
    (hf : ∀ j msg, (f j).error = some msg → j.error = some msg ∨ msg ≠ "") :
    ∀ id j msg, findJob (updateJob m id0 f) id = some j → j.error = some msg → msg ≠ "" := by
  intro id j msg hj he
  by_cases hcase : id = id0
  · subst hcase
    rw [findJob_updateJob_self] at hj
    cases hfind : findJob m id with
    | none => rw [hfind] at hj; cases hj
    | some j0 =>
      rw [hfind] at hj
      cases hj
      rcases hf j0 msg he with h1 | h1
      · exact hP id j0 msg hfind h1
      · exact h1
  · rw [findJob_updateJob_ne _ _ _ _ hcase] at hj
    exact hP id j msg hj he

theorem errNE_processNextJob (s : State) (hP : ErrNE s) : ErrNE (processNextJob s) := by
  rcases processNextJob_cases s with heq | ⟨heq, _⟩ | ⟨x, q1, q2, _, _, _, _, heq⟩
  · rwa [heq]
  · rw [heq]; exact hP
  · rw [heq]
    exact errNE_updateJob s.jobs x markProcessing hP (fun j msg he => Or.inl he)

theorem errNE_finallyBlock (s : State) (id : Nat) (hP : ErrNE s) :
    ErrNE (finallyBlock s id) := by
  unfold finallyBlock
  exact errNE_processNextJob _ hP

theorem errNE_step (s : State) (e : Event) (hok : eventMsgsOk e = true) (hP : ErrNE s) :
    ErrNE (step s e) := by
  cases e with
  | submit i o n =>
    show ErrNE (processNextJob _)
    apply errNE_processNextJob
    intro id j m hj he
    simp only [findJob] at hj
    by_cases hcase : s.nextId = id
    · rw [if_pos hcase] at hj
      cases hj
      cases he
    · rw [if_neg hcase] at hj
      exact hP id j m hj he
  | cancel id0 =>
    cases hj0 : findJob s.jobs id0 with
    | none =>
      intro id j m hj he
      refine hP id j m ?_ he
      simpa [step, cancelJobFn, hj0] using hj
    | some job =>
      by_cases hc : job.status ≠ .queued ∧ job.status ≠ .processing
      · intro id j m hj he
        refine hP id j m ?_ he
        simpa [step, cancelJobFn, hj0, hc] using hj
      · by_cases hq : job.status = .queued
        · have hnp : ¬ job.status = .processing := by rw [hq]; exact fun hx => nomatch hx
          have hstate : (cancelJobFn { s with clock := s.clock + 1 } id0).1 = { s with
              clock := s.clock + 1
              queue := s.queue.erase id0
              jobs := updateJob s.jobs id0
                (fun j => { j with status := .cancelled, completedAt := some (s.clock + 1) })
              cleanupCalls := s.cleanupCalls ++ [id0] } := by
            simp [cancelJobFn, hj0, hc, hq, hnp]
          show ErrNE (cancelJobFn { s with clock := s.clock + 1 } id0).1
          rw [hstate]
          exact errNE_updateJob s.jobs id0 _ hP (fun j msg he => Or.inl he)
        · have hp : job.status = .processing := by
            rcases not_and_or.mp hc with h1 | h2
            · exact absurd (not_not.mp h1) hq
            · exact not_not.mp h2
          have hstate : (cancelJobFn { s with clock := s.clock + 1 } id0).1 = { s with
              clock := s.clock + 1
              processing := s.processing.erase id0
              deleteCalls := s.deleteCalls ++ [id0]
              jobs := updateJob s.jobs id0
                (fun j => { j with status := .cancelled, completedAt := some (s.clock + 1) })
              cleanupCalls := s.cleanupCalls ++ [id0] } := by
            simp [cancelJobFn, hj0, hc, hq, hp]
          show ErrNE (cancelJobFn { s with clock := s.clock + 1 } id0).1
          rw [hstate]
          exact errNE_updateJob s.jobs id0 _ hP (fun j msg he => Or.inl he)
  | timeout id0 =>
    by_cases ht : id0 ∈ s.timers
    · have hstate : timeoutFireFn { s with clock := s.clock + 1 } id0
          = processNextJob { s with
          clock := s.clock + 1
          timers := s.timers.erase id0
          jobs := updateJob s.jobs id0
            (fun j => { j with
              status := .failed
              error := some "Conversion timeout exceeded"
              completedAt := some (s.clock + 1) })
          processing := s.processing.erase id0
          deleteCalls := s.deleteCalls ++ [id0]
          admitCalls := s.admitCalls ++ [id0] } := by
        simp [timeoutFireFn, ht]
      show ErrNE (timeoutFireFn { s with clock := s.clock + 1 } id0)
      rw [hstate]
      apply errNE_processNextJob
      exact errNE_updateJob s.jobs id0 _ hP
        (fun j msg he => Or.inr (by cases he; decide))
    · show ErrNE (timeoutFireFn { s with clock := s.clock + 1 } id0)
      simp only [timeoutFireFn, ht, if_neg, if_false]
      exact hP
  | engineSuccess id0 meta =>
    by_cases hpend : id0 ∈ s.pending
    · show ErrNE (engineSuccessFn { s with clock := s.clock + 1 } id0 meta)
      unfold engineSuccessFn
      rw [if_pos hpend]
      dsimp only
      cases hj0 : findJob s.jobs id0 with
      | none => exact errNE_finallyBlock _ id0 hP
      | some job =>
        dsimp only
        by_cases hc : job.status = .cancelled
        · rw [if_pos hc]
          exact errNE_finallyBlock _ id0 hP
        · rw [if_neg hc]
          apply errNE_finallyBlock
          exact errNE_updateJob s.jobs id0 _ hP (fun j msg he => Or.inl he)
    · show ErrNE (engineSuccessFn { s with clock := s.clock + 1 } id0 meta)
      simp only [engineSuccessFn, hpend, if_neg, if_false]
      exact hP
  | engineFailure id0 emsg =>
    have hmsg : errMessage emsg ≠ "" := by
      cases emsg with
      | none => decide
      | some m =>
        intro hmm
        rw [show errMessage (some m) = m from rfl] at hmm
        subst hmm
        simp [eventMsgsOk] at hok
    by_cases hpend : id0 ∈ s.pending
    · show ErrNE (engineFailureFn { s with clock := s.clock + 1 } id0 emsg)
      unfold engineFailureFn
      rw [if_pos hpend]
      dsimp only
      apply errNE_finallyBlock
      exact errNE_updateJob s.jobs id0 _ hP (fun j msg he => Or.inr (by cases he; exact hmsg))
    · show ErrNE (engineFailureFn { s with clock := s.clock + 1 } id0 emsg)
      simp only [engineFailureFn, hpend, if_neg, if_false]
      exact hP
  | progress id0 pc =>
    by_cases hpend : id0 ∈ s.pending
    · show ErrNE (progressCbFn { s with clock := s.clock + 1 } id0 pc)
      unfold progressCbFn
      rw [if_pos hpend]
      refine errNE_updateJob s.jobs id0 _ hP (fun j msg he => Or.inl ?_)
      rwa [updateProgress_error] at he
    · show ErrNE (progressCbFn { s with clock := s.clock + 1 } id0 pc)
      simp only [progressCbFn, hpend, if_neg, if_false]
      exact hP

theorem errNE_runFrom (es : List Event) :
    ∀ s, (∀ e ∈ es, eventMsgsOk e = true) → ErrNE s → ErrNE (runFrom s es) := by
  induction es with
  | nil => exact fun _ _ hP => hP
  | cons e tl ih =>
    intro s hok hP
    exact ih (step s e) (fun e' he' => hok e' (List.mem_cons_of_mem _ he'))
      (errNE_step s e (hok e (List.mem_cons_self _ _)) hP)

theorem errNE_run (c : Nat) (es : List Event) (hok : ∀ e ∈ es, eventMsgsOk e = true) :
    ErrNE (run c es) :=
  errNE_runFrom es (initState c) hok (by intro id j m hj he; cases hj)

/-- C8 (amended): both failure paths set a non-empty error description
(the engine's message when it is an `Error`, else a generic message), so a
`failed` job always carries a non-empty error and no `queued`,
`processing`, or `cancelled` job ever carries one; but the equivalence
"error present iff failed" fails in one direction: a job whose watchdog
fired and whose engine later succeeded ends `completed` while retaining
the stale timeout error. -/
theorem error_iff_failed_amended (c : Nat) (es : List Event) (id : Nat) (j : ConversionJob)
    (hj : findJob (run c es).jobs id = some j)
    (hok : ∀ e ∈ es, eventMsgsOk e = true) :
    (j.status = .failed → j.error ≠ none) ∧
    (j.error ≠ none → j.status = .failed ∨ j.status = .completed) ∧
    (∀ m, j.error = some m → m ≠ "") ∧
    (j.status = .queued ∨ j.status = .processing ∨ j.status = .cancelled →
      j.error = none) := by
  have he := (inv_run c es).errStatus id j hj
  refine ⟨he.1, he.2, fun m hm => errNE_run c es hok id j m hj hm, ?_⟩
  intro hst
  by_contra hne
  rcases he.2 hne with hf | hf <;>
    rcases hst with h1 | h1 | h1 <;> rw [h1] at hf <;> exact nomatch hf

/-- Witness for `error_iff_failed_amended`: a job failed by an engine
error with message "boom". -/
theorem error_iff_failed_amended_witness :
    ((⟨0, "i", "o", "n", .failed, 0, 1, some 2, some "boom", none⟩ : ConversionJob).status
        = .failed →
      (⟨0, "i", "o", "n", .failed, 0, 1, some 2, some "boom", none⟩ : ConversionJob).error
        ≠ none) ∧
    ((⟨0, "i", "o", "n", .failed, 0, 1, some 2, some "boom", none⟩ : ConversionJob).error
        ≠ none →
      (⟨0, "i", "o", "n", .failed, 0, 1, some 2, some "boom", none⟩ : ConversionJob).status
          = .failed ∨
      (⟨0, "i", "o", "n", .failed, 0, 1, some 2, some "boom", none⟩ : ConversionJob).status
          = .completed) ∧
    (∀ m, (⟨0, "i", "o", "n", .failed, 0, 1, some 2, some "boom", none⟩ : ConversionJob).error
        = some m → m ≠ "") ∧
    ((⟨0, "i", "o", "n", .failed, 0, 1, some 2, some "boom", none⟩ : ConversionJob).status
        = .queued ∨
      (⟨0, "i", "o", "n", .failed, 0, 1, some 2, some "boom", none⟩ : ConversionJob).status
        = .processing ∨
      (⟨0, "i", "o", "n", .failed, 0, 1, some 2, some "boom", none⟩ : ConversionJob).status
        = .cancelled →
      (⟨0, "i", "o", "n", .failed, 0, 1, some 2, some "boom", none⟩ : ConversionJob).error
        = none) :=
  error_iff_failed_amended 1 [.submit "i" "o" "n", .engineFailure 0 (some "boom")] 0
    ⟨0, "i", "o", "n", .failed, 0, 1, some 2, some "boom", none⟩
    (by decide) (by decide)

end Mp4ToWav
